import Mathlib

/-!
# spinmaxcut.c : a shallow embedding

The C program is translated function by function.

* A C array is a `List`; `a[i]` read is `a.getD i 0`, `a[i] = x` is `a.set i x`.
* A counted `for` loop is `forLoop body cnt init`, running `body 0`, `body 1`, ... in order.
* `unsigned long` / `unsigned` values are `Nat`: every counter of the program is bounded by
  the size of an allocated array (at most `2 * e` or `k * n`), so no wrap-around is reachable
  there. The one exception is `g->n++` in `readedgelist`, whose operand comes from the input:
  it is taken modulo `ULONG_MAX + 1`.
* `double` is an arbitrary linearly ordered field `α` (exact arithmetic); `sqrt` is a parameter,
  instantiated with `Real.sqrt` in the theorems.
* `gaussian()` reads the process-wide generator: the stream of its successive results is the
  parameter `gauss : Nat → α`, and the number of draws consumed so far is threaded as `pos`.
* `malloc` returns indeterminate contents: each `malloc`ed buffer takes its initial contents
  from a parameter (`junk : Nat → β`), `calloc` returns zeros.
-/

namespace SpinMaxCut

/-! ## Loops and memory -/

/-- Counted loop `for (i = 0; i < cnt; i++) st = body i st`. -/
def forLoop {σ : Type} (body : Nat → σ → σ) : Nat → σ → σ
  | 0, st => st
  | cnt + 1, st => body cnt (forLoop body cnt st)

/-- Contents of a freshly `malloc`ed buffer of `len` cells (indeterminate values `junk`). -/
def malloc {β : Type} (junk : Nat → β) (len : Nat) : List β :=
  (List.range len).map junk

/-- Contents of a freshly `calloc`ed buffer of `len` cells. -/
def calloc (len : Nat) : List Nat :=
  List.replicate len 0

/-! ## Graph store -/

/-- Mirror of `typedef struct { unsigned long s; unsigned long t; } edge`. -/
structure edge where
  s : Nat
  t : Nat
deriving DecidableEq

/-- Mirror of the struct `adjlist`. -/
structure adjlist where
  n : Nat
  e : Nat
  edges : List edge
  cd : List Nat
  adj : List Nat
deriving DecidableEq

/-- Largest value of `unsigned long` (64 bits, the LP64 data model). -/
def ULONG_MAX : Nat := 18446744073709551615

/-- The function `max3`. -/
def max3 (a b c : Nat) : Nat :=
  let a := if a > b then a else b
  if a > c then a else c

/-- One iteration of the reading loop of `readedgelist` (lines 66-72): the pair delivered by
`fscanf` is stored in `edges[e]`, `n` is updated with `max3`, and `e` is incremented (the
reallocation of lines 68-71 only changes the capacity). -/
def readedgelist_step (g : adjlist) (p : Nat × Nat) : adjlist :=
  let edges := g.edges ++ [⟨p.1, p.2⟩]
  { g with edges := edges, n := max3 g.n p.1 p.2, e := g.e + 1 }

/-- The function `readedgelist`, on the sequence `pairs` of the pairs of `unsigned long` that
`fscanf` delivers before it first fails. `cd` and `adj` are not allocated yet. -/
def readedgelist (pairs : List (Nat × Nat)) : adjlist :=
  let g := pairs.foldl readedgelist_step { n := 0, e := 0, edges := [], cd := [], adj := [] }
  { g with n := (g.n + 1) % (ULONG_MAX + 1) }

/-- The maximum node id occurring in any pair (0 for no pair). -/
def maxId (pairs : List (Nat × Nat)) : Nat :=
  (pairs.map (fun p => max p.1 p.2)).foldl max 0

/-- Node count as the claim words it: start from 0 and update `n = max(n, u+1, v+1)` for each
pair `(u,v)`. -/
def specNodeCount (pairs : List (Nat × Nat)) : Nat :=
  pairs.foldl (fun n p => max n (max (p.1 + 1) (p.2 + 1))) 0

/-- Read of `g->edges[i]`. -/
def edgeAt (edges : List edge) (i : Nat) : edge :=
  edges.getD i ⟨0, 0⟩

/-- First loop of `mkadjlist` (lines 86-89): degree counting. -/
def mkadjlist_count (g : adjlist) (d : List Nat) : List Nat :=
  forLoop (fun i d =>
    let d := d.set (edgeAt g.edges i).s (d.getD (edgeAt g.edges i).s 0 + 1)
    d.set (edgeAt g.edges i).t (d.getD (edgeAt g.edges i).t 0 + 1)) g.e d

/-- Second loop of `mkadjlist` (lines 92-96): prefix sums into `cd`, resetting `d`.
The loop variable of the source is `i = idx + 1`. -/
def mkadjlist_cumul (g : adjlist) (cd d : List Nat) : List Nat × List Nat :=
  forLoop (fun idx (st : List Nat × List Nat) =>
    let cd := st.1.set (idx + 1) (st.1.getD idx 0 + st.2.getD idx 0)
    (cd, st.2.set idx 0)) g.n (cd.set 0 0, d)

/-- Third loop of `mkadjlist` (lines 100-105): filling `adj` with per-node cursors `d`. -/
def mkadjlist_fill (g : adjlist) (cd : List Nat) (adj d : List Nat) : List Nat × List Nat :=
  forLoop (fun i (st : List Nat × List Nat) =>
    let u := (edgeAt g.edges i).s
    let v := (edgeAt g.edges i).t
    let adj := st.1.set (cd.getD u 0 + st.2.getD u 0) v
    let d := st.2.set u (st.2.getD u 0 + 1)
    let adj := adj.set (cd.getD v 0 + d.getD v 0) u
    let d := d.set v (d.getD v 0 + 1)
    (adj, d)) g.e (adj, d)

/-- The function `mkadjlist`; `junkcd` and `junkadj` are the indeterminate contents of the two
`malloc`ed arrays. -/
def mkadjlist (junkcd junkadj : Nat → Nat) (g : adjlist) : adjlist :=
  let d := mkadjlist_count g (calloc g.n)
  let cdd := mkadjlist_cumul g (malloc junkcd (g.n + 1)) d
  let adjd := mkadjlist_fill g cdd.1 (malloc junkadj (2 * g.e)) cdd.2
  { g with cd := cdd.1, adj := adjd.1 }

/-- Third loop of `mkadjlist` (lines 100-105) with a record of its writes: the state is
`(adj, d, writes)`, where `writes` lists in execution order the pair `(node, position)` of every
assignment `adj[cd[node] + d[node]++] = ...`. -/
def mkadjlist_fill_writes (g : adjlist) (cd : List Nat) (adj d : List Nat) :
    List Nat × List Nat × List (Nat × Nat) :=
  forLoop (fun i (st : List Nat × List Nat × List (Nat × Nat)) =>
    let u := (edgeAt g.edges i).s
    let v := (edgeAt g.edges i).t
    let p1 := cd.getD u 0 + st.2.1.getD u 0
    let adj := st.1.set p1 v
    let d := st.2.1.set u (st.2.1.getD u 0 + 1)
    let p2 := cd.getD v 0 + d.getD v 0
    let adj := adj.set p2 u
    let d := d.set v (d.getD v 0 + 1)
    (adj, d, st.2.2 ++ [(u, p1), (v, p2)])) g.e (adj, d, [])

/-- The pairs `(node, position)` of the writes into `adj` made by `mkadjlist`. -/
def mkadjlist_writes (junkcd junkadj : Nat → Nat) (g : adjlist) : List (Nat × Nat) :=
  let d := mkadjlist_count g (calloc g.n)
  let cdd := mkadjlist_cumul g (malloc junkcd (g.n + 1)) d
  (mkadjlist_fill_writes g cdd.1 (malloc junkadj (2 * g.e)) cdd.2).2.2

/-- Slice `adj[cd[u] .. cd[u+1]-1]` of node `u`. -/
def nbrs (g : adjlist) (u : Nat) : List Nat :=
  (List.range (g.cd.getD (u + 1) 0 - g.cd.getD u 0)).map (fun i => g.adj.getD (g.cd.getD u 0 + i) 0)

/-- Neighbour entries contributed to node `u` by one edge `(s,t)`: `t` if `s = u`, then `s`
if `t = u` (a self-loop contributes `u` twice). -/
def edgeContrib (u : Nat) (ed : edge) : List Nat :=
  (if ed.s = u then [ed.t] else []) ++ (if ed.t = u then [ed.s] else [])

/-- Neighbour list of `u` as the claim words it: contributions of the edges incident to `u`,
in the order of the edge sequence. -/
def incidence (edges : List edge) (u : Nat) : List Nat :=
  edges.flatMap (edgeContrib u)

/-- Degree of `u`: number of endpoint incidences of `u` in the edge sequence. -/
def degree (edges : List edge) (u : Nat) : Nat :=
  edges.countP (fun ed => ed.s = u) + edges.countP (fun ed => ed.t = u)

/-- Sum of the neighbour-list lengths of the nodes below `u`. -/
def degsum (edges : List edge) : Nat → Nat
  | 0 => 0
  | u + 1 => degsum edges u + (incidence edges u).length

/-- Edge sequence whose endpoints are all below `n`, with `e` its length. -/
def wellFormed (g : adjlist) : Prop :=
  g.e = g.edges.length ∧ ∀ ed ∈ g.edges, ed.s < g.n ∧ ed.t < g.n

instance (g : adjlist) : Decidable (wellFormed g) := by
  unfold wellFormed; exact inferInstance

/-- Sample input: four edges over three nodes, with a self-loop `(2,2)`; `cd` and `adj` are
not built yet. -/
def sampleGraph : adjlist :=
  { n := 3, e := 4, edges := [⟨0, 1⟩, ⟨1, 2⟩, ⟨2, 2⟩, ⟨2, 0⟩], cd := [], adj := [] }

/-- The sample input after `mkadjlist`: `cd = [0,2,4,8]`, `adj = [1,2,0,2,1,2,2,0]`. -/
def sampleAdj : adjlist :=
  mkadjlist (fun _ => 7) (fun _ => 9) sampleGraph

/-- Graph read from the one-line edge list `0 0` (a single self-loop), after `mkadjlist`. -/
def loopGraph : adjlist :=
  { n := 1, e := 1, edges := [⟨0, 0⟩], cd := [0, 2], adj := [0, 0] }

/-- Graph read from the one-line edge list `0 1`, after `mkadjlist`. -/
def pairGraph : adjlist :=
  { n := 2, e := 1, edges := [⟨0, 1⟩], cd := [0, 1, 2], adj := [1, 0] }

/-- The triangle graph, read from the edge list `0 1`, `1 2`, `2 0` and passed to `mkadjlist`. -/
def triangleGraph : adjlist :=
  mkadjlist (fun _ => 0) (fun _ => 0) (readedgelist [(0, 1), (1, 2), (2, 0)])

/-! ## Embedding state -/

section Numeric

variable {α : Type} [LinearOrderedField α]

/-- The constant `PI` of line 34. -/
def PI : α :=
  314159265358979323846 / 100000000000000000000

/-- The function `gaussian()`, on the values `r1`, `r2` returned by its two calls of `rand()`.
`RAND_MAX` is the implementation-defined constant of `stdlib.h`; `sqrt`, `log` and `cos` are the
functions of `math.h`. -/
def gaussian (sqrt log cos : α → α) (RAND_MAX : Nat) (r1 r2 : Nat) : α :=
  let u1 := ((r1 : α) + 1) / ((RAND_MAX : α) + 1)
  let u2 := ((r2 : α) + 1) / ((RAND_MAX : α) + 1)
  sqrt (-2 * log u1) * cos (2 * PI * u2)

/-- Stream of the results of `gaussian()` for the stream `rand` of the results of `rand()`:
call number `i` consumes the values number `2 * i` and `2 * i + 1`. -/
def gaussStream (sqrt log cos : α → α) (RAND_MAX : Nat) (rand : Nat → Nat) : Nat → α :=
  fun i => gaussian sqrt log cos RAND_MAX (rand (2 * i)) (rand (2 * i + 1))

/-- Sampling loop shared by `init_embedding` (lines 149-152, `base = i*k`, `s = 0`) and the
resample branch of `spinmaxcut` (lines 194-197, `base = tmp1`, `s` not reset):
`emb[base+j] = gaussian(); s += emb[base+j]*emb[base+j]`. The state is `(emb, s, pos)`. -/
def sample_loop (gauss : Nat → α) (base k : Nat) (emb : List α) (s : α) (pos : Nat) :
    List α × α × Nat :=
  forLoop (fun j (st : List α × α × Nat) =>
    let emb := st.1.set (base + j) (gauss st.2.2)
    (emb, st.2.1 + emb.getD (base + j) 0 * emb.getD (base + j) 0, st.2.2 + 1)) k (emb, s, pos)

/-- Normalising loop `for (j=0;j<k;j++) emb[base+j] /= s` (lines 154-156, 189-191, 199-201). -/
def divide_loop (base k : Nat) (s : α) (emb : List α) : List α :=
  forLoop (fun j emb => emb.set (base + j) (emb.getD (base + j) 0 / s)) k emb

/-- The function `init_embedding`; the state is `(emb, pos)`. -/
def init_embedding (sqrt : α → α) (gauss : Nat → α) (junk : Nat → α) (n k : Nat) (pos : Nat) :
    List α × Nat :=
  forLoop (fun i (st : List α × Nat) =>
    let r := sample_loop gauss (i * k) k st.1 0 st.2
    let s := sqrt r.2.1
    (divide_loop (i * k) k s r.1, r.2.2)) n (malloc junk (k * n), pos)

/-- The function `init_embedding` with a record of its divisors: the state is
`(emb, pos, divisors)`, where `divisors` lists, node after node, the value of `s` after line 153
by which the `k` cells of the node are divided in lines 154-156. -/
def init_embedding_divisors (sqrt : α → α) (gauss : Nat → α) (junk : Nat → α) (n k : Nat)
    (pos : Nat) : List α × Nat × List α :=
  forLoop (fun i (st : List α × Nat × List α) =>
    let r := sample_loop gauss (i * k) k st.1 0 st.2.1
    let s := sqrt r.2.1
    (divide_loop (i * k) k s r.1, r.2.2, st.2.2 ++ [s])) n (malloc junk (k * n), pos, [])

/-! ## Relaxation engine -/

/-- The call `bzero(emb+tmp1, k*sizeof(double))` (line 174). -/
def bzero (base k : Nat) (emb : List α) : List α :=
  forLoop (fun j emb => emb.set (base + j) 0) k emb

/-- Neighbour loop of `spinmaxcut` (lines 175-181); the source's `i` is `cd[u] + idx`. -/
def accumulate (g : adjlist) (k u : Nat) (emb : List α) : List α :=
  forLoop (fun idx emb =>
    let i := g.cd.getD u 0 + idx
    let v := g.adj.getD i 0
    let tmp2 := k * v
    forLoop (fun j emb => emb.set (k * u + j) (emb.getD (k * u + j) 0 - emb.getD (tmp2 + j) 0))
      k emb) (g.cd.getD (u + 1) 0 - g.cd.getD u 0) emb

/-- Squared-norm loop of `spinmaxcut` (lines 182-185). -/
def sqnorm_loop (base k : Nat) (emb : List α) : α :=
  forLoop (fun j s => s + emb.getD (base + j) 0 * emb.getD (base + j) 0) k 0

/-- Body of the node loop of `spinmaxcut` (lines 173-202) for node `u`, on state `(emb, pos)`. -/
def relax_node (sqrt : α → α) (gauss : Nat → α) (g : adjlist) (k u : Nat) (st : List α × Nat) :
    List α × Nat :=
  let tmp1 := k * u
  let emb := bzero tmp1 k st.1
  let emb := accumulate g k u emb
  let s := sqnorm_loop tmp1 k emb
  if s > 0 then
    (divide_loop tmp1 k (sqrt s) emb, st.2)
  else
    let r := sample_loop gauss tmp1 k emb s st.2
    (divide_loop tmp1 k (sqrt r.2.1) r.1, r.2.2)

/-- One iteration of the outer loop of `spinmaxcut` (lines 172-203). -/
def sweep (sqrt : α → α) (gauss : Nat → α) (g : adjlist) (k : Nat) (st : List α × Nat) :
    List α × Nat :=
  forLoop (relax_node sqrt gauss g k) g.n st

/-- The function `spinmaxcut`: the returned embedding, and the number of draws consumed. -/
def spinmaxcut (sqrt : α → α) (gauss : Nat → α) (junk : Nat → α) (g : adjlist) (k t : Nat)
    (pos : Nat) : List α × Nat :=
  forLoop (fun _ st => sweep sqrt gauss g k st) t (init_embedding sqrt gauss junk g.n k pos)

/-- Component `j` of the accumulator of node `u` as the claim words it: minus the sum, over all
entries `v` of the neighbour list of `u` (with multiplicity), of component `j` of the stored
vector of `v`. -/
def negNeighbourSum (g : adjlist) (k : Nat) (emb : List α) (u j : Nat) : α :=
  -((nbrs g u).map (fun v => emb.getD (k * v + j) 0)).sum

/-- Squared Euclidean norm of the `k`-vector with components `x 0, ..., x (k-1)`. -/
def sqNorm (k : Nat) (x : Nat → α) : α :=
  Finset.sum (Finset.range k) (fun j => x j * x j)

/-- Squared Euclidean norm of the stored vector of node `u`. -/
def nodeSqNorm (k : Nat) (emb : List α) (u : Nat) : α :=
  sqNorm k (fun j => emb.getD (k * u + j) 0)

/-- Proviso on the draws used by the update of node `u` started in state `st`: either the test
`s > 0` of line 186 succeeds (no draw is used), or the `k` draws consumed by the resample branch
are not all zero. -/
def resample_ok (gauss : Nat → α) (g : adjlist) (k u : Nat) (st : List α × Nat) : Prop :=
  sqnorm_loop (k * u) k (accumulate g k u (bzero (k * u) k st.1)) > 0 ∨
  ∃ j, j < k ∧ gauss (st.2 + j) ≠ 0

/-! ## Rounding and scoring engine -/

/-- Local variables of `hyperplanecut` that live across trials. -/
structure roundState (α : Type) where
  vect : List α
  lab1 : List Int
  lab2 : List Int
  cut : Nat
  pos : Nat

/-- Outputs of `hyperplanecut`: the returned pointer `lab2`, `*cut`, `*cutsdp`, and the number of
draws consumed. -/
structure cutResult (α : Type) where
  lab : List Int
  cut : Nat
  cutsdp : α
  pos : Nat

/-- Random direction loop (lines 222-224); the state is `(vect, pos)`. -/
def direction_loop (gauss : Nat → α) (k : Nat) (vect : List α) (pos : Nat) : List α × Nat :=
  forLoop (fun j (st : List α × Nat) => (st.1.set j (gauss st.2), st.2 + 1)) k (vect, pos)

/-- Label loop (lines 227-237). -/
def label_loop (g : adjlist) (emb vect : List α) (k : Nat) (lab1 : List Int) : List Int :=
  forLoop (fun u lab1 =>
    let tmp := k * u
    let s := forLoop (fun j s => s + emb.getD (tmp + j) 0 * vect.getD j 0) k (0 : α)
    if s < 0 then lab1.set u (-1) else lab1.set u 1) g.n lab1

/-- Cut counting loop (lines 240-245). -/
def count_loop (g : adjlist) (lab1 : List Int) : Nat :=
  forLoop (fun i cut2 =>
    if lab1.getD (edgeAt g.edges i).s 0 ≠ lab1.getD (edgeAt g.edges i).t 0 then cut2 + 1
    else cut2) g.e 0

/-- Body of the trial loop (lines 221-252). -/
def trial (gauss : Nat → α) (g : adjlist) (emb : List α) (k : Nat) (st : roundState α) :
    roundState α :=
  let r := direction_loop gauss k st.vect st.pos
  let lab1 := label_loop g emb r.1 k st.lab1
  let cut2 := count_loop g lab1
  if cut2 > st.cut then
    { vect := r.1, lab1 := st.lab2, lab2 := lab1, cut := cut2, pos := r.2 }
  else
    { vect := r.1, lab1 := lab1, lab2 := st.lab2, cut := st.cut, pos := r.2 }

/-- Accumulation of `*cutsdp` (lines 255-260). -/
def sdp_loop (g : adjlist) (emb : List α) (k : Nat) : α :=
  forLoop (fun i c =>
    forLoop (fun j c =>
      c + emb.getD ((edgeAt g.edges i).s * k + j) 0 * emb.getD ((edgeAt g.edges i).t * k + j) 0)
      k c) g.e 0

/-- The function `hyperplanecut`; `junkv`, `junk1`, `junk2` are the indeterminate contents of the
`malloc`ed buffers `vect`, `lab1`, `lab2`. -/
def hyperplanecut (gauss : Nat → α) (junkv : Nat → α) (junk1 junk2 : Nat → Int) (g : adjlist)
    (emb : List α) (k : Nat) (pos : Nat) : cutResult α :=
  let st0 : roundState α :=
    { vect := malloc junkv k, lab1 := malloc junk1 g.n, lab2 := malloc junk2 g.n,
      cut := 0, pos := pos }
  let st := forLoop (fun _ st => trial gauss g emb k st) 10 st0
  { lab := st.lab2, cut := st.cut, cutsdp := ((g.e : α) - sdp_loop g emb k) / 2, pos := st.pos }

/-- Dot product of the stored vector of node `u` with the direction `d`. -/
def dotDir (k : Nat) (emb : List α) (d : Nat → α) (u : Nat) : α :=
  Finset.sum (Finset.range k) (fun j => emb.getD (k * u + j) 0 * d j)

/-- Label of node `u` for the direction `d`, as the claim words it: `+1` if the dot product is
`≥ 0`, `-1` otherwise. -/
def specLabel (k : Nat) (emb : List α) (d : Nat → α) (u : Nat) : Int :=
  if 0 ≤ dotDir k emb d u then 1 else -1

/-- Cut count of one trial, as the claim words it: the number of edges `(a,b)` of the stored edge
sequence with `label a ≠ label b`. -/
def specTrialCut (g : adjlist) (k : Nat) (emb : List α) (d : Nat → α) : Nat :=
  g.edges.countP (fun ed => specLabel k emb d ed.s ≠ specLabel k emb d ed.t)

/-- Direction of trial `l`: the `k` draws taken by that trial, the first trial starting at draw
number `pos`. -/
def trialDir (gauss : Nat → α) (k pos l : Nat) : Nat → α :=
  fun j => gauss (pos + l * k + j)

/-- Inner product of the stored vectors of the nodes `a` and `b`. -/
def dotNodes (k : Nat) (emb : List α) (a b : Nat) : α :=
  Finset.sum (Finset.range k) (fun j => emb.getD (k * a + j) 0 * emb.getD (k * b + j) 0)

/-- Stream of draws `1, -1, 1, 1, 1, ...`. -/
def signDraws : Nat → α :=
  fun i => if i = 1 then -1 else 1

/-- Stream of draws `1, 0, 0, 1` followed by `1, -1, 1, -1, ...`. -/
def altDraws : Nat → α :=
  fun i => if i = 1 ∨ i = 2 then 0 else if 5 ≤ i ∧ i % 2 = 1 then -1 else 1

end Numeric

/-! ## Generic lemmas on buffers and loops -/

theorem getD_set_self {β : Type} (l : List β) (i : Nat) (x d : β) (h : i < l.length) :
    (l.set i x).getD i d = x := by
  simp [List.getD_eq_getElem?_getD, List.getElem?_set, h]

theorem getD_set_other {β : Type} (l : List β) (i j : Nat) (x d : β) (h : i ≠ j) :
    (l.set i x).getD j d = l.getD j d := by
  simp [List.getD_eq_getElem?_getD, List.getElem?_set, h]

theorem forLoop_succ {σ : Type} (body : Nat → σ → σ) (cnt : Nat) (st : σ) :
    forLoop body (cnt + 1) st = body cnt (forLoop body cnt st) := rfl

theorem forLoop_zero {σ : Type} (body : Nat → σ → σ) (st : σ) :
    forLoop body 0 st = st := rfl

theorem forLoop_inv {σ : Type} (P : Nat → σ → Prop) (body : Nat → σ → σ) (cnt : Nat) (st : σ)
    (h0 : P 0 st) (hs : ∀ i s, i < cnt → P i s → P (i + 1) (body i s)) :
    P cnt (forLoop body cnt st) := by
  have key : ∀ m, m ≤ cnt → P m (forLoop body m st) := by
    intro m
    induction m with
    | zero => intro _; exact h0
    | succ m ih =>
      intro hm
      exact hs m _ (by omega) (ih (by omega))
  exact key cnt le_rfl

theorem forLoop_congr {σ : Type} (f g : Nat → σ → σ) (cnt : Nat) (st : σ)
    (h : ∀ i s, i < cnt → f i s = g i s) : forLoop f cnt st = forLoop g cnt st := by
  induction cnt with
  | zero => rfl
  | succ m ih =>
    rw [forLoop_succ, forLoop_succ, ih (fun i s hi => h i s (by omega)), h m _ (by omega)]

theorem malloc_length {β : Type} (junk : Nat → β) (len : Nat) : (malloc junk len).length = len := by
  simp [malloc]

theorem calloc_length (len : Nat) : (calloc len).length = len := by
  simp [calloc]

theorem calloc_getD (len i : Nat) : (calloc len).getD i 0 = 0 := by
  simp [calloc, List.getD_eq_getElem?_getD, List.getElem?_replicate]
  split <;> simp

theorem take_succ_edgeAt (edges : List edge) (i : Nat) (h : i < edges.length) :
    edges.take (i + 1) = edges.take i ++ [edgeAt edges i] := by
  rw [List.take_succ]
  simp [edgeAt, List.getD_eq_getElem?_getD, List.getElem?_eq_getElem h]

theorem edgeAt_mem (edges : List edge) (i : Nat) (h : i < edges.length) :
    edgeAt edges i ∈ edges := by
  simp [edgeAt, List.getD_eq_getElem?_getD, List.getElem?_eq_getElem h]

theorem map_range_getD (L : List Nat) (m : Nat) (f : Nat → Nat) (hm : L.length = m)
    (hf : ∀ i, i < m → f i = L.getD i 0) : (List.range m).map f = L := by
  apply List.ext_getElem
  · simp [hm]
  · intro i h1 h2
    simp at h1
    simp [hf i h1, List.getD_eq_getElem?_getD, List.getElem?_eq_getElem h2]

/-! ## Graph store: `mkadjlist` -/

theorem incidence_append (l1 l2 : List edge) (u : Nat) :
    incidence (l1 ++ l2) u = incidence l1 u ++ incidence l2 u := by
  simp [incidence, List.flatMap_append]

theorem incidence_snoc (l : List edge) (ed : edge) (u : Nat) :
    incidence (l ++ [ed]) u = incidence l u ++ edgeContrib u ed := by
  simp [incidence, List.flatMap_append]

theorem edgeContrib_length (u : Nat) (ed : edge) :
    (edgeContrib u ed).length = (if ed.s = u then 1 else 0) + (if ed.t = u then 1 else 0) := by
  unfold edgeContrib
  split <;> split <;> simp

theorem incidence_take_le (edges : List edge) (i u : Nat) :
    (incidence (edges.take i) u).length ≤ (incidence edges u).length := by
  conv_rhs => rw [← List.take_append_drop i edges, incidence_append]
  simp

theorem incidence_length_eq_degree (edges : List edge) (u : Nat) :
    (incidence edges u).length = degree edges u := by
  induction edges with
  | nil => simp [incidence, degree]
  | cons ed l ih =>
    have h : incidence (ed :: l) u = edgeContrib u ed ++ incidence l u := by
      simp [incidence]
    rw [h, List.length_append, ih, edgeContrib_length]
    simp only [degree, List.countP_cons, decide_eq_true_eq]
    omega

theorem degsum_mono (edges : List edge) (u w : Nat) (h : u ≤ w) :
    degsum edges u ≤ degsum edges w := by
  induction w with
  | zero =>
    have : u = 0 := by omega
    subst this; exact le_rfl
  | succ w ih =>
    rcases Nat.lt_or_ge u (w + 1) with h1 | h1
    · have := ih (by omega)
      simp only [degsum]; omega
    · have : u = w + 1 := by omega
      subst this; exact le_rfl

theorem degsum_slice_le (edges : List edge) (u w : Nat) (h : u < w) :
    degsum edges u + (incidence edges u).length ≤ degsum edges w := by
  have := degsum_mono edges (u + 1) w h
  simpa [degsum] using this

theorem degsum_contrib (n : Nat) (ed : edge) (hs : ed.s < n) (ht : ed.t < n) (l : List edge) :
    degsum (l ++ [ed]) n = degsum l n + 2 := by
  have key : ∀ m, degsum (l ++ [ed]) m
      = degsum l m + (if ed.s < m then 1 else 0) + (if ed.t < m then 1 else 0) := by
    intro m
    induction m with
    | zero => simp [degsum]
    | succ m ih =>
      simp only [degsum, ih, incidence_snoc, List.length_append, edgeContrib_length]
      split_ifs <;> omega
  rw [key n]; simp [hs, ht]

theorem degsum_total (n : Nat) (edges : List edge)
    (h : ∀ ed ∈ edges, ed.s < n ∧ ed.t < n) : degsum edges n = 2 * edges.length := by
  induction edges using List.reverseRecOn with
  | nil =>
    have : ∀ m, degsum [] m = 0 := by
      intro m; induction m with
      | zero => rfl
      | succ m ih => simp [degsum, ih, incidence]
    simp [this]
  | append_singleton l ed ih =>
    have h1 := h ed (by simp)
    rw [degsum_contrib n ed h1.1 h1.2, ih (fun x hx => h x (by simp [hx]))]
    simp; omega

theorem mkadjlist_count_spec (g : adjlist) (h : wellFormed g) :
    (mkadjlist_count g (calloc g.n)).length = g.n ∧
    ∀ w, w < g.n → (mkadjlist_count g (calloc g.n)).getD w 0 = (incidence g.edges w).length := by
  have key := forLoop_inv
    (fun i (d : List Nat) => d.length = g.n ∧
      ∀ w, w < g.n → d.getD w 0 = (incidence (g.edges.take i) w).length)
    (fun i d =>
      let d := d.set (edgeAt g.edges i).s (d.getD (edgeAt g.edges i).s 0 + 1)
      d.set (edgeAt g.edges i).t (d.getD (edgeAt g.edges i).t 0 + 1)) g.e (calloc g.n)
    ⟨calloc_length _, fun w _ => by rw [calloc_getD]; simp [incidence]⟩
    (by
      intro i d hi ⟨hlen, hd⟩
      have hi2 : i < g.edges.length := h.1 ▸ hi
      have hb := h.2 _ (edgeAt_mem g.edges i hi2)
      refine ⟨by simp [hlen], ?_⟩
      intro w hw
      rw [take_succ_edgeAt _ _ hi2, incidence_snoc, List.length_append, edgeContrib_length,
        ← hd w hw]
      dsimp only
      generalize edgeAt g.edges i = ed at hb ⊢
      have hs : ed.s < d.length := hlen ▸ hb.1
      have ht : ed.t < (d.set ed.s (d.getD ed.s 0 + 1)).length := by simp [hlen, hb.2]
      by_cases h1 : ed.t = w
      · subst h1
        rw [getD_set_self _ _ _ _ ht]
        by_cases h2 : ed.s = ed.t
        · rw [h2] at hs ⊢; rw [getD_set_self _ _ _ _ hs]; simp
        · rw [getD_set_other _ _ _ _ _ h2]; simp [h2]
      · rw [getD_set_other _ _ _ _ _ h1]
        by_cases h2 : ed.s = w
        · subst h2; rw [getD_set_self _ _ _ _ hs]; simp [h1]
        · rw [getD_set_other _ _ _ _ _ h2]; simp [h1, h2])
  have hfull : g.edges.take g.e = g.edges := by rw [h.1]; simp
  simp only [hfull] at key
  exact key

theorem mkadjlist_cumul_spec (g : adjlist) (cd d : List Nat) (deg : Nat → Nat)
    (hcd : cd.length = g.n + 1) (hd : d.length = g.n)
    (hdeg : ∀ w, w < g.n → d.getD w 0 = deg w) (ds : Nat → Nat)
    (hds0 : ds 0 = 0) (hds : ∀ w, ds (w + 1) = ds w + deg w) :
    (mkadjlist_cumul g cd d).1.length = g.n + 1 ∧
    (∀ w, w ≤ g.n → (mkadjlist_cumul g cd d).1.getD w 0 = ds w) ∧
    (mkadjlist_cumul g cd d).2.length = g.n ∧
    (∀ w, w < g.n → (mkadjlist_cumul g cd d).2.getD w 0 = 0) := by
  have key := forLoop_inv
    (fun i (st : List Nat × List Nat) => st.1.length = g.n + 1 ∧
      (∀ w, w ≤ i → st.1.getD w 0 = ds w) ∧ st.2.length = g.n ∧
      (∀ w, w < i → st.2.getD w 0 = 0) ∧ (∀ w, i ≤ w → w < g.n → st.2.getD w 0 = deg w))
    (fun idx (st : List Nat × List Nat) =>
      let cd := st.1.set (idx + 1) (st.1.getD idx 0 + st.2.getD idx 0)
      (cd, st.2.set idx 0)) g.n (cd.set 0 0, d)
    (by
      refine ⟨by simp [hcd], ?_, hd, ?_, ?_⟩
      · intro w hw
        have : w = 0 := by omega
        subst this
        rw [getD_set_self _ _ _ _ (by omega), hds0]
      · intro w hw; omega
      · intro w _ hw; exact hdeg w hw)
    (by
      intro i st hi ⟨h1, h2, h3, h4, h5⟩
      refine ⟨by simp [h1], ?_, by simp [h3], ?_, ?_⟩
      · intro w hw
        by_cases hw2 : w = i + 1
        · subst hw2
          show (st.1.set (i + 1) _).getD (i + 1) 0 = _
          rw [getD_set_self _ _ _ _ (by omega), h2 i le_rfl, h5 i le_rfl hi, hds]
        · show (st.1.set (i + 1) _).getD w 0 = _
          rw [getD_set_other _ _ _ _ _ (Ne.symm hw2)]
          exact h2 w (by omega)
      · intro w hw
        show (st.2.set i 0).getD w 0 = 0
        by_cases hw2 : w = i
        · subst hw2; rw [getD_set_self _ _ _ _ (by omega)]
        · rw [getD_set_other _ _ _ _ _ (Ne.symm hw2)]; exact h4 w (by omega)
      · intro w hw hwn
        show (st.2.set i 0).getD w 0 = _
        rw [getD_set_other _ _ _ _ _ (by omega)]; exact h5 w (by omega) hwn)
  exact ⟨key.1, key.2.1, key.2.2.1, key.2.2.2.1⟩

/-- One cursor write `adj[c a + d[a]++] = x` appends `x` to the list stored for node `a` and
leaves the lists stored for the other nodes untouched. -/
theorem fill_half_step (n : Nat) (c cap : Nat → Nat) (L L2 : Nat → List Nat) (adj d : List Nat)
    (a x : Nat) (ha : a < n)
    (hsep : ∀ w w2, w < w2 → c w + cap w ≤ c w2)
    (hfit : ∀ w, w < n → c w + cap w ≤ adj.length)
    (hcap : (L a).length < cap a) (hcapw : ∀ w, w < n → (L w).length ≤ cap w)
    (hdl : d.length = n) (hd : ∀ w, w < n → d.getD w 0 = (L w).length)
    (hadj : ∀ w, w < n → ∀ j, j < (L w).length → adj.getD (c w + j) 0 = (L w).getD j 0)
    (hL2a : L2 a = L a ++ [x]) (hL2 : ∀ w, w ≠ a → L2 w = L w) :
    (d.set a (d.getD a 0 + 1)).length = n ∧
    (adj.set (c a + d.getD a 0) x).length = adj.length ∧
    (∀ w, w < n → (d.set a (d.getD a 0 + 1)).getD w 0 = (L2 w).length) ∧
    (∀ w, w < n → ∀ j, j < (L2 w).length →
      (adj.set (c a + d.getD a 0) x).getD (c w + j) 0 = (L2 w).getD j 0) := by
  refine ⟨by simp [hdl], by simp, ?_, ?_⟩
  · intro w hw
    by_cases h : w = a
    · subst h
      rw [getD_set_self _ _ _ _ (by omega), hL2a, hd w hw]; simp
    · rw [getD_set_other _ _ _ _ _ (Ne.symm h), hL2 w h, hd w hw]
  · intro w hw j hj
    rw [hd a ha]
    by_cases h : w = a
    · subst h
      rw [hL2a] at hj ⊢
      simp only [List.length_append, List.length_singleton] at hj
      by_cases hj2 : j = (L w).length
      · subst hj2
        rw [getD_set_self _ _ _ _ (by have := hfit w hw; omega)]
        simp [List.getD_eq_getElem?_getD]
      · have hj3 : j < (L w).length := by omega
        rw [getD_set_other _ _ _ _ _ (by omega), hadj w hw j hj3]
        simp [List.getD_eq_getElem?_getD, List.getElem?_append_left hj3]
    · rw [hL2 w h] at hj ⊢
      have hne : c a + (L a).length ≠ c w + j := by
        rcases Nat.lt_or_ge w a with h1 | h1
        · have := hsep w a h1; have := hcapw w hw; omega
        · have := hsep a w (by omega); omega
      rw [getD_set_other _ _ _ _ _ hne, hadj w hw j hj]

theorem mkadjlist_fill_spec (g : adjlist) (h : wellFormed g) (cd adj d : List Nat)
    (hcd : ∀ w, w ≤ g.n → cd.getD w 0 = degsum g.edges w)
    (hadjl : adj.length = 2 * g.e) (hdl : d.length = g.n)
    (hd : ∀ w, w < g.n → d.getD w 0 = 0) :
    (mkadjlist_fill g cd adj d).1.length = 2 * g.e ∧
    ∀ w, w < g.n → ∀ j, j < (incidence g.edges w).length →
      (mkadjlist_fill g cd adj d).1.getD (degsum g.edges w + j) 0
        = (incidence g.edges w).getD j 0 := by
  have hsep : ∀ w w2, w < w2 →
      degsum g.edges w + (incidence g.edges w).length ≤ degsum g.edges w2 :=
    fun w w2 hw => degsum_slice_le g.edges w w2 hw
  have htot : degsum g.edges g.n = 2 * g.e := by rw [degsum_total g.n g.edges h.2, h.1]
  have key := forLoop_inv
    (fun i (st : List Nat × List Nat) => st.1.length = 2 * g.e ∧ st.2.length = g.n ∧
      (∀ w, w < g.n → st.2.getD w 0 = (incidence (g.edges.take i) w).length) ∧
      (∀ w, w < g.n → ∀ j, j < (incidence (g.edges.take i) w).length →
        st.1.getD (degsum g.edges w + j) 0 = (incidence (g.edges.take i) w).getD j 0))
    (fun i (st : List Nat × List Nat) =>
      let u := (edgeAt g.edges i).s
      let v := (edgeAt g.edges i).t
      let adj := st.1.set (cd.getD u 0 + st.2.getD u 0) v
      let d := st.2.set u (st.2.getD u 0 + 1)
      let adj := adj.set (cd.getD v 0 + d.getD v 0) u
      let d := d.set v (d.getD v 0 + 1)
      (adj, d)) g.e (adj, d)
    ⟨hadjl, hdl, fun w hw => by rw [hd w hw]; simp [incidence],
      fun w _ j hj => by simp [incidence] at hj⟩
    (by
      intro i st hi ⟨h1, h2, h3, h4⟩
      have hi2 : i < g.edges.length := h.1 ▸ hi
      have hb := h.2 _ (edgeAt_mem g.edges i hi2)
      have htk := take_succ_edgeAt g.edges i hi2
      have hle := fun w => incidence_take_le g.edges (i + 1) w
      dsimp only
      rw [hcd _ (Nat.le_of_lt hb.1), hcd _ (Nat.le_of_lt hb.2)]
      simp only [htk, incidence_snoc] at hle ⊢
      generalize edgeAt g.edges i = ed at hb hle ⊢
      have hfit : ∀ w, w < g.n →
          degsum g.edges w + (incidence g.edges w).length ≤ st.1.length := by
        intro w hw
        have := hsep w g.n hw
        omega
      have hle2 : ∀ w, (incidence (g.edges.take i) w).length
          + ((if ed.s = w then 1 else 0) + (if ed.t = w then 1 else 0))
          ≤ (incidence g.edges w).length := by
        intro w
        have := hle w
        rwa [List.length_append, edgeContrib_length] at this
      -- first write: `adj[cd[s] + d[s]++] = t`
      have s1 := fill_half_step g.n (degsum g.edges) (fun w => (incidence g.edges w).length)
        (fun w => incidence (g.edges.take i) w)
        (fun w => incidence (g.edges.take i) w ++ (if ed.s = w then [ed.t] else []))
        st.1 st.2 ed.s ed.t hb.1 hsep hfit
        (by
          show (incidence (g.edges.take i) ed.s).length < (incidence g.edges ed.s).length
          have := hle2 ed.s
          rw [if_pos rfl] at this
          omega)
        (fun w _ => incidence_take_le g.edges i w) h2 h3 h4 (by simp)
        (fun w hw => by simp [Ne.symm hw])
      obtain ⟨a1, a2, a3, a4⟩ := s1
      -- second write: `adj[cd[t] + d[t]++] = s`
      have s2 := fill_half_step g.n (degsum g.edges) (fun w => (incidence g.edges w).length)
        (fun w => incidence (g.edges.take i) w ++ (if ed.s = w then [ed.t] else []))
        (fun w => incidence (g.edges.take i) w ++ edgeContrib w ed)
        (st.1.set (degsum g.edges ed.s + st.2.getD ed.s 0) ed.t)
        (st.2.set ed.s (st.2.getD ed.s 0 + 1)) ed.t ed.s hb.2 hsep
        (by rw [a2]; exact hfit)
        (by
          show (incidence (g.edges.take i) ed.t ++ (if ed.s = ed.t then [ed.t] else [])).length
            < (incidence g.edges ed.t).length
          have := hle2 ed.t
          rw [if_pos rfl] at this
          by_cases hst : ed.s = ed.t
          · rw [if_pos hst] at this ⊢; simp; omega
          · rw [if_neg hst] at this ⊢; simp; omega)
        (fun w _ => by
          show (incidence (g.edges.take i) w ++ (if ed.s = w then [ed.t] else [])).length
            ≤ (incidence g.edges w).length
          have := hle2 w
          by_cases hst : ed.s = w
          · rw [if_pos hst] at this ⊢; simp; omega
          · rw [if_neg hst] at this ⊢; simp; omega)
        a1 a3 a4 (by simp [edgeContrib])
        (fun w hw => by simp [edgeContrib, Ne.symm hw])
      obtain ⟨b1, b2, b3, b4⟩ := s2
      exact ⟨by rw [b2, a2, h1], b1, b3, b4⟩)
  have hfull : g.edges.take g.e = g.edges := by rw [h.1]; simp
  simp only [hfull] at key
  exact ⟨key.1, key.2.2.2⟩

theorem mkadjlist_cd_getD (junkcd junkadj : Nat → Nat) (g : adjlist) (h : wellFormed g) :
    (mkadjlist junkcd junkadj g).cd.length = g.n + 1 ∧
    ∀ w, w ≤ g.n → (mkadjlist junkcd junkadj g).cd.getD w 0 = degsum g.edges w := by
  have hc := mkadjlist_count_spec g h
  have hk := mkadjlist_cumul_spec g (malloc junkcd (g.n + 1)) (mkadjlist_count g (calloc g.n))
    (fun w => (incidence g.edges w).length) (malloc_length _ _) hc.1 hc.2 (degsum g.edges)
    rfl (fun _ => rfl)
  exact ⟨hk.1, hk.2.1⟩

/-- C2: for an edge sequence with endpoints below `n`, the array `cd` built by `mkadjlist` has
length `n + 1`, starts with `cd[0] = 0`, is non-decreasing, and ends with `cd[n] = 2 * e`. -/
theorem mkadjlist_cd_spec (junkcd junkadj : Nat → Nat) (g : adjlist) (h : wellFormed g) :
    (mkadjlist junkcd junkadj g).cd.length = g.n + 1 ∧
    (mkadjlist junkcd junkadj g).cd.getD 0 0 = 0 ∧
    (∀ u, u < g.n → (mkadjlist junkcd junkadj g).cd.getD u 0
      ≤ (mkadjlist junkcd junkadj g).cd.getD (u + 1) 0) ∧
    (mkadjlist junkcd junkadj g).cd.getD g.n 0 = 2 * g.e := by
  obtain ⟨h1, h2⟩ := mkadjlist_cd_getD junkcd junkadj g h
  refine ⟨h1, ?_, ?_, ?_⟩
  · rw [h2 0 (Nat.zero_le _)]; rfl
  · intro u hu
    rw [h2 u (Nat.le_of_lt hu), h2 (u + 1) hu]
    exact degsum_mono _ _ _ (Nat.le_succ u)
  · rw [h2 g.n le_rfl, degsum_total g.n g.edges h.2, h.1]

theorem mkadjlist_cd_spec_witness :
    wellFormed sampleGraph ∧
    (mkadjlist (fun _ => 7) (fun _ => 9) sampleGraph).cd.length = sampleGraph.n + 1 ∧
    (mkadjlist (fun _ => 7) (fun _ => 9) sampleGraph).cd.getD 0 0 = 0 ∧
    (∀ u, u < sampleGraph.n → (mkadjlist (fun _ => 7) (fun _ => 9) sampleGraph).cd.getD u 0
      ≤ (mkadjlist (fun _ => 7) (fun _ => 9) sampleGraph).cd.getD (u + 1) 0) ∧
    (mkadjlist (fun _ => 7) (fun _ => 9) sampleGraph).cd.getD sampleGraph.n 0
      = 2 * sampleGraph.e :=
  ⟨by decide, mkadjlist_cd_spec (fun _ => 7) (fun _ => 9) sampleGraph (by decide)⟩

/-- C1: for an edge sequence with endpoints below `n`, after `mkadjlist` the slice
`adj[cd[u] .. cd[u+1]-1]` of every node `u` lists the entries contributed by the edges incident
to `u` in edge order (`t` for `s = u`, then `s` for `t = u`, a self-loop giving `u` twice), and
its length is the degree of `u`. -/
theorem mkadjlist_nbrs_spec (junkcd junkadj : Nat → Nat) (g : adjlist) (h : wellFormed g)
    (u : Nat) (hu : u < g.n) :
    nbrs (mkadjlist junkcd junkadj g) u = incidence g.edges u ∧
    (nbrs (mkadjlist junkcd junkadj g) u).length = degree g.edges u := by
  have hmain : nbrs (mkadjlist junkcd junkadj g) u = incidence g.edges u := by
    obtain ⟨_, h2⟩ := mkadjlist_cd_getD junkcd junkadj g h
    have hc := mkadjlist_count_spec g h
    have hk := mkadjlist_cumul_spec g (malloc junkcd (g.n + 1)) (mkadjlist_count g (calloc g.n))
      (fun w => (incidence g.edges w).length) (malloc_length _ _) hc.1 hc.2 (degsum g.edges)
      rfl (fun _ => rfl)
    have hf := mkadjlist_fill_spec g h _ (malloc junkadj (2 * g.e)) _ hk.2.1
      (malloc_length _ _) hk.2.2.1 hk.2.2.2
    unfold nbrs
    rw [h2 u (Nat.le_of_lt hu), h2 (u + 1) hu]
    apply map_range_getD
    · simp [degsum]
    · intro i hi
      have hi2 : i < (incidence g.edges u).length := by simpa [degsum] using hi
      exact hf.2 u hu i hi2
  exact ⟨hmain, by rw [hmain, incidence_length_eq_degree]⟩

theorem mkadjlist_nbrs_spec_witness :
    wellFormed sampleGraph ∧ 2 < sampleGraph.n ∧
    nbrs (mkadjlist (fun _ => 7) (fun _ => 9) sampleGraph) 2 = [1, 2, 2, 0] ∧
    (nbrs (mkadjlist (fun _ => 7) (fun _ => 9) sampleGraph) 2).length = 4 :=
  ⟨by decide, by decide,
    mkadjlist_nbrs_spec (fun _ => 7) (fun _ => 9) sampleGraph (by decide) 2 (by decide)⟩

/-! ## Generic lemmas on block loops -/

section NumericLemmas

variable {α : Type} [LinearOrderedField α]

/-- A loop writing cell `b + j` at iteration `j` keeps the length and every cell outside the
block `[b, b + k)`. -/
theorem block_loop_frame (b k : Nat) (F : Nat → List α → α) (emb : List α) :
    (forLoop (fun j e => e.set (b + j) (F j e)) k emb).length = emb.length ∧
    ∀ i, (i < b ∨ b + k ≤ i) →
      (forLoop (fun j e => e.set (b + j) (F j e)) k emb).getD i 0 = emb.getD i 0 := by
  have key := forLoop_inv
    (fun m (e : List α) => e.length = emb.length ∧
      ∀ i, (i < b ∨ b + m ≤ i) → e.getD i 0 = emb.getD i 0)
    (fun j e => e.set (b + j) (F j e)) k emb ⟨rfl, fun _ _ => rfl⟩
    (by
      intro m e _ ⟨h1, h2⟩
      refine ⟨by simp [h1], ?_⟩
      intro i hi
      rw [getD_set_other _ _ _ _ _ (by omega)]
      exact h2 i (by omega))
  exact key

/-- A loop writing cell `b + j` at iteration `j` with a value that only depends on cells not
yet written stores `val j` in cell `b + j`. -/
theorem block_loop_spec (b k : Nat) (F : Nat → List α → α) (emb : List α)
    (hb : b + k ≤ emb.length) (val : Nat → α)
    (hF : ∀ j, j < k → ∀ e2 : List α,
      (∀ i, (i < b ∨ b + j ≤ i) → e2.getD i 0 = emb.getD i 0) → F j e2 = val j) :
    ∀ j, j < k → (forLoop (fun j e => e.set (b + j) (F j e)) k emb).getD (b + j) 0 = val j := by
  have key := forLoop_inv
    (fun m (e : List α) => e.length = emb.length ∧
      (∀ j, j < m → e.getD (b + j) 0 = val j) ∧
      ∀ i, (i < b ∨ b + m ≤ i) → e.getD i 0 = emb.getD i 0)
    (fun j e => e.set (b + j) (F j e)) k emb ⟨rfl, fun j hj => by omega, fun _ _ => rfl⟩
    (by
      intro m e hm ⟨h1, h2, h3⟩
      refine ⟨by simp [h1], ?_, ?_⟩
      · intro j hj
        by_cases hjm : j = m
        · subst hjm
          rw [getD_set_self _ _ _ _ (by omega)]
          exact hF j hm e h3
        · rw [getD_set_other _ _ _ _ _ (by omega)]
          exact h2 j (by omega)
      · intro i hi
        rw [getD_set_other _ _ _ _ _ (by omega)]
        exact h3 i (by omega))
  exact key.2.1

theorem sum_loop_spec (f : Nat → α) (k : Nat) (s0 : α) :
    forLoop (fun j s => s + f j) k s0 = s0 + Finset.sum (Finset.range k) f := by
  induction k with
  | zero => simp [forLoop]
  | succ m ih => rw [forLoop_succ, ih, Finset.sum_range_succ]; ring

theorem list_sum_map_range (f : Nat → α) (m : Nat) :
    ((List.range m).map f).sum = Finset.sum (Finset.range m) f := by
  induction m with
  | zero => simp
  | succ m ih => simp [List.range_succ, Finset.sum_range_succ, ih]

theorem sample_loop_spec (gauss : Nat → α) (b k : Nat) (emb : List α) (s : α) (pos : Nat)
    (hb : b + k ≤ emb.length) :
    (sample_loop gauss b k emb s pos).1.length = emb.length ∧
    (∀ j, j < k → (sample_loop gauss b k emb s pos).1.getD (b + j) 0 = gauss (pos + j)) ∧
    (∀ i, (i < b ∨ b + k ≤ i) → (sample_loop gauss b k emb s pos).1.getD i 0 = emb.getD i 0) ∧
    (sample_loop gauss b k emb s pos).2.1
      = s + Finset.sum (Finset.range k) (fun j => gauss (pos + j) * gauss (pos + j)) ∧
    (sample_loop gauss b k emb s pos).2.2 = pos + k := by
  have key := forLoop_inv
    (fun m (st : List α × α × Nat) => st.1.length = emb.length ∧
      (∀ j, j < m → st.1.getD (b + j) 0 = gauss (pos + j)) ∧
      (∀ i, (i < b ∨ b + m ≤ i) → st.1.getD i 0 = emb.getD i 0) ∧
      st.2.1 = s + Finset.sum (Finset.range m) (fun j => gauss (pos + j) * gauss (pos + j)) ∧
      st.2.2 = pos + m)
    (fun j (st : List α × α × Nat) =>
      let emb := st.1.set (b + j) (gauss st.2.2)
      (emb, st.2.1 + emb.getD (b + j) 0 * emb.getD (b + j) 0, st.2.2 + 1)) k (emb, s, pos)
    ⟨rfl, fun j hj => by omega, fun _ _ => rfl, by simp, rfl⟩
    (by
      intro m st hm ⟨h1, h2, h3, h4, h5⟩
      dsimp only
      refine ⟨by simp [h1], ?_, ?_, ?_, by rw [h5]; rfl⟩
      · intro j hj
        by_cases hjm : j = m
        · subst hjm
          rw [getD_set_self _ _ _ _ (by omega), h5]
        · rw [getD_set_other _ _ _ _ _ (by omega)]
          exact h2 j (by omega)
      · intro i hi
        rw [getD_set_other _ _ _ _ _ (by omega)]
        exact h3 i (by omega)
      · rw [getD_set_self _ _ _ _ (by omega), h4, h5, Finset.sum_range_succ]; ring)
  exact key

theorem sample_loop_frame (gauss : Nat → α) (b k : Nat) (emb : List α) (s : α) (pos : Nat) :
    (sample_loop gauss b k emb s pos).1.length = emb.length ∧
    (∀ i, (i < b ∨ b + k ≤ i) → (sample_loop gauss b k emb s pos).1.getD i 0 = emb.getD i 0) := by
  have key := forLoop_inv
    (fun m (st : List α × α × Nat) => st.1.length = emb.length ∧
      (∀ i, (i < b ∨ b + m ≤ i) → st.1.getD i 0 = emb.getD i 0))
    (fun j (st : List α × α × Nat) =>
      let emb := st.1.set (b + j) (gauss st.2.2)
      (emb, st.2.1 + emb.getD (b + j) 0 * emb.getD (b + j) 0, st.2.2 + 1)) k (emb, s, pos)
    ⟨rfl, fun _ _ => rfl⟩
    (by
      intro m st _ ⟨h1, h3⟩
      dsimp only
      refine ⟨by simp [h1], ?_⟩
      intro i hi
      rw [getD_set_other _ _ _ _ _ (by omega)]
      exact h3 i (by omega))
  exact key

theorem divide_loop_frame (b k : Nat) (s : α) (emb : List α) :
    (divide_loop b k s emb).length = emb.length ∧
    ∀ i, (i < b ∨ b + k ≤ i) → (divide_loop b k s emb).getD i 0 = emb.getD i 0 :=
  block_loop_frame b k (fun j e => e.getD (b + j) 0 / s) emb

theorem divide_loop_spec (b k : Nat) (s : α) (emb : List α) (hb : b + k ≤ emb.length) :
    ∀ j, j < k → (divide_loop b k s emb).getD (b + j) 0 = emb.getD (b + j) 0 / s :=
  block_loop_spec b k (fun j e => e.getD (b + j) 0 / s) emb hb
    (fun j => emb.getD (b + j) 0 / s)
    (fun j _ e2 h => by show e2.getD (b + j) 0 / s = _; rw [h _ (Or.inr le_rfl)])

theorem bzero_frame (b k : Nat) (emb : List α) :
    (bzero b k emb).length = emb.length ∧
    ∀ i, (i < b ∨ b + k ≤ i) → (bzero b k emb).getD i 0 = emb.getD i 0 :=
  block_loop_frame b k (fun _ _ => 0) emb

theorem bzero_spec (b k : Nat) (emb : List α) (hb : b + k ≤ emb.length) :
    ∀ j, j < k → (bzero b k emb).getD (b + j) 0 = 0 :=
  block_loop_spec b k (fun _ _ => 0) emb hb (fun _ => 0) (fun _ _ _ _ => rfl)

theorem sqnorm_loop_spec (b k : Nat) (emb : List α) :
    sqnorm_loop b k emb
      = Finset.sum (Finset.range k) (fun j => emb.getD (b + j) 0 * emb.getD (b + j) 0) := by
  unfold sqnorm_loop
  rw [sum_loop_spec (fun j => emb.getD (b + j) 0 * emb.getD (b + j) 0)]; simp

theorem block_in_bounds (k n u : Nat) (hu : u < n) : k * u + k ≤ k * n := by
  have : k * (u + 1) ≤ k * n := Nat.mul_le_mul_left k hu
  rw [Nat.mul_succ] at this; exact this

theorem block_disjoint (k u v j : Nat) (hj : j < k) (h : v ≠ u) :
    k * v + j < k * u ∨ k * u + k ≤ k * v + j := by
  rcases Nat.lt_or_gt_of_ne h with h1 | h1
  · left
    have := block_in_bounds k u v h1
    omega
  · right
    have := block_in_bounds k v u h1
    omega

end NumericLemmas

/-! ## Relaxation engine: the node update -/

section RelaxLemmas

variable {α : Type} [LinearOrderedField α]

theorem accumulate_frame (g : adjlist) (k u : Nat) (emb : List α) :
    (accumulate g k u emb).length = emb.length ∧
    ∀ i, (i < k * u ∨ k * u + k ≤ i) → (accumulate g k u emb).getD i 0 = emb.getD i 0 := by
  have key := forLoop_inv
    (fun _ (e : List α) => e.length = emb.length ∧
      ∀ i, (i < k * u ∨ k * u + k ≤ i) → e.getD i 0 = emb.getD i 0)
    (fun idx emb =>
      let i := g.cd.getD u 0 + idx
      let v := g.adj.getD i 0
      let tmp2 := k * v
      forLoop (fun j emb =>
        emb.set (k * u + j) (emb.getD (k * u + j) 0 - emb.getD (tmp2 + j) 0)) k emb)
    (g.cd.getD (u + 1) 0 - g.cd.getD u 0) emb ⟨rfl, fun _ _ => rfl⟩
    (by
      intro m e _ ⟨h1, h2⟩
      have hf := block_loop_frame (k * u) k
        (fun j e => e.getD (k * u + j) 0 - e.getD (k * g.adj.getD (g.cd.getD u 0 + m) 0 + j) 0) e
      dsimp only
      exact ⟨hf.1.trans h1, fun i hi => (hf.2 i hi).trans (h2 i hi)⟩)
  exact key

theorem accumulate_spec (g : adjlist) (k u : Nat) (emb : List α)
    (hb : k * u + k ≤ emb.length)
    (hself : ∀ idx, idx < g.cd.getD (u + 1) 0 - g.cd.getD u 0 →
      g.adj.getD (g.cd.getD u 0 + idx) 0 ≠ u) :
    ∀ j, j < k → (accumulate g k u emb).getD (k * u + j) 0
      = emb.getD (k * u + j) 0
        - Finset.sum (Finset.range (g.cd.getD (u + 1) 0 - g.cd.getD u 0))
            (fun idx => emb.getD (k * g.adj.getD (g.cd.getD u 0 + idx) 0 + j) 0) := by
  have key := forLoop_inv
    (fun m (e : List α) => e.length = emb.length ∧
      (∀ i, (i < k * u ∨ k * u + k ≤ i) → e.getD i 0 = emb.getD i 0) ∧
      ∀ j, j < k → e.getD (k * u + j) 0 = emb.getD (k * u + j) 0
        - Finset.sum (Finset.range m)
            (fun idx => emb.getD (k * g.adj.getD (g.cd.getD u 0 + idx) 0 + j) 0))
    (fun idx emb =>
      let i := g.cd.getD u 0 + idx
      let v := g.adj.getD i 0
      let tmp2 := k * v
      forLoop (fun j emb =>
        emb.set (k * u + j) (emb.getD (k * u + j) 0 - emb.getD (tmp2 + j) 0)) k emb)
    (g.cd.getD (u + 1) 0 - g.cd.getD u 0) emb ⟨rfl, fun _ _ => rfl, fun j _ => by simp⟩
    (by
      intro m e hm ⟨h1, h2, h3⟩
      have hv := hself m hm
      dsimp only
      simp only [Finset.sum_range_succ]
      generalize g.adj.getD (g.cd.getD u 0 + m) 0 = v at hv ⊢
      have hf := block_loop_frame (k * u) k
        (fun j e => e.getD (k * u + j) 0 - e.getD (k * v + j) 0) e
      have hs := block_loop_spec (k * u) k
        (fun j e => e.getD (k * u + j) 0 - e.getD (k * v + j) 0) e (by omega)
        (fun j => e.getD (k * u + j) 0 - e.getD (k * v + j) 0)
        (by
          intro j hj e2 he2
          show e2.getD (k * u + j) 0 - e2.getD (k * v + j) 0 = _
          rw [he2 _ (Or.inr le_rfl)]
          have := block_disjoint k u v j hj hv
          rw [he2 (k * v + j) (by omega)])
      refine ⟨hf.1.trans h1, fun i hi => (hf.2 i hi).trans (h2 i hi), ?_⟩
      intro j hj
      rw [hs j hj]
      show e.getD (k * u + j) 0 - e.getD (k * v + j) 0 = _
      rw [h3 j hj, h2 (k * v + j) (block_disjoint k u v j hj hv)]
      ring)
  exact key.2.2

end RelaxLemmas

section RelaxSpec

variable {α : Type} [LinearOrderedField α]

theorem sqNorm_nonneg (k : Nat) (x : Nat → α) : 0 ≤ sqNorm k x :=
  Finset.sum_nonneg (fun j _ => mul_self_nonneg (x j))

theorem forLoop_eq_foldl {σ : Type} (body : Nat → σ → σ) (cnt : Nat) (st : σ) :
    forLoop body cnt st = (List.range cnt).foldl (fun s u => body u s) st := by
  induction cnt with
  | zero => rfl
  | succ m ih => rw [forLoop_succ, ih, List.range_succ, List.foldl_append]; rfl

theorem relax_node_frame (sqrt : α → α) (gauss : Nat → α) (g : adjlist) (k u : Nat)
    (st : List α × Nat) :
    (relax_node sqrt gauss g k u st).1.length = st.1.length ∧
    ∀ i, (i < k * u ∨ k * u + k ≤ i) →
      (relax_node sqrt gauss g k u st).1.getD i 0 = st.1.getD i 0 := by
  have hz := bzero_frame (k * u) k st.1
  have ha := accumulate_frame g k u (bzero (k * u) k st.1)
  unfold relax_node
  dsimp only
  split
  · have hd := divide_loop_frame (k * u) k
      (sqrt (sqnorm_loop (k * u) k (accumulate g k u (bzero (k * u) k st.1))))
      (accumulate g k u (bzero (k * u) k st.1))
    exact ⟨hd.1.trans (ha.1.trans hz.1),
      fun i hi => (hd.2 i hi).trans ((ha.2 i hi).trans (hz.2 i hi))⟩
  · have hs := sample_loop_frame gauss (k * u) k (accumulate g k u (bzero (k * u) k st.1))
      (sqnorm_loop (k * u) k (accumulate g k u (bzero (k * u) k st.1))) st.2
    have hd := divide_loop_frame (k * u) k
      (sqrt (sample_loop gauss (k * u) k (accumulate g k u (bzero (k * u) k st.1))
        (sqnorm_loop (k * u) k (accumulate g k u (bzero (k * u) k st.1))) st.2).2.1)
      (sample_loop gauss (k * u) k (accumulate g k u (bzero (k * u) k st.1))
        (sqnorm_loop (k * u) k (accumulate g k u (bzero (k * u) k st.1))) st.2).1
    exact ⟨hd.1.trans (hs.1.trans (ha.1.trans hz.1)),
      fun i hi => (hd.2 i hi).trans ((hs.2 i hi).trans ((ha.2 i hi).trans (hz.2 i hi)))⟩

/-- Accumulator of a node without self-loop entry, after `bzero` and the neighbour loop. -/
theorem relax_node_acc (g : adjlist) (k u : Nat) (emb : List α)
    (hb : k * u + k ≤ emb.length) (hself : u ∉ nbrs g u) :
    ∀ j, j < k → (accumulate g k u (bzero (k * u) k emb)).getD (k * u + j) 0
      = negNeighbourSum g k emb u j := by
  intro j hj
  have hself2 : ∀ idx, idx < g.cd.getD (u + 1) 0 - g.cd.getD u 0 →
      g.adj.getD (g.cd.getD u 0 + idx) 0 ≠ u := by
    intro idx hidx heq
    apply hself
    unfold nbrs
    exact List.mem_map.mpr ⟨idx, List.mem_range.mpr hidx, heq⟩
  have hz := bzero_frame (k * u) k emb
  rw [accumulate_spec g k u (bzero (k * u) k emb) (by rw [hz.1]; exact hb) hself2 j hj,
    bzero_spec (k * u) k emb hb j hj]
  unfold negNeighbourSum nbrs
  rw [List.map_map, list_sum_map_range, zero_sub]
  congr 1
  apply Finset.sum_congr rfl
  intro idx hidx
  exact hz.2 _ (block_disjoint k u _ j hj (hself2 idx (Finset.mem_range.mp hidx)))

end RelaxSpec

section RelaxSpec2

variable {α : Type} [LinearOrderedField α]

/-- Both branches of the node update, in terms of the accumulator left by the neighbour loop. -/
theorem relax_node_block (sqrt : α → α) (gauss : Nat → α) (g : adjlist) (k u : Nat)
    (st : List α × Nat) (hb : k * u + k ≤ st.1.length) :
    (0 < sqNorm k (fun j => (accumulate g k u (bzero (k * u) k st.1)).getD (k * u + j) 0) →
      (relax_node sqrt gauss g k u st).2 = st.2 ∧
      ∀ j, j < k → (relax_node sqrt gauss g k u st).1.getD (k * u + j) 0
        = (accumulate g k u (bzero (k * u) k st.1)).getD (k * u + j) 0
          / sqrt (sqNorm k
              (fun j => (accumulate g k u (bzero (k * u) k st.1)).getD (k * u + j) 0))) ∧
    (¬ 0 < sqNorm k (fun j => (accumulate g k u (bzero (k * u) k st.1)).getD (k * u + j) 0) →
      (relax_node sqrt gauss g k u st).2 = st.2 + k ∧
      ∀ j, j < k → (relax_node sqrt gauss g k u st).1.getD (k * u + j) 0
        = gauss (st.2 + j) / sqrt (sqNorm k (fun j => gauss (st.2 + j)))) := by
  have hz := bzero_frame (k * u) k st.1
  have ha := accumulate_frame g k u (bzero (k * u) k st.1)
  have hb2 : k * u + k ≤ (accumulate g k u (bzero (k * u) k st.1)).length := by
    rw [ha.1, hz.1]; exact hb
  have hsq := sqnorm_loop_spec (k * u) k (accumulate g k u (bzero (k * u) k st.1))
  unfold relax_node
  dsimp only
  generalize accumulate g k u (bzero (k * u) k st.1) = e2 at hb2 hsq ⊢
  have hsq2 : sqnorm_loop (k * u) k e2 = sqNorm k (fun j => e2.getD (k * u + j) 0) := hsq
  rw [hsq2]
  constructor
  · intro hpos
    rw [if_pos hpos]
    exact ⟨rfl, fun j hj => divide_loop_spec (k * u) k _ e2 hb2 j hj⟩
  · intro hneg
    rw [if_neg hneg]
    have hzero : sqNorm k (fun j => e2.getD (k * u + j) 0) = 0 :=
      le_antisymm (not_lt.mp hneg) (sqNorm_nonneg _ _)
    rw [hzero]
    obtain ⟨s1, s2, _, s4, s5⟩ := sample_loop_spec gauss (k * u) k e2 0 st.2 hb2
    refine ⟨s5, fun j hj => ?_⟩
    rw [divide_loop_spec (k * u) k _ _ (by rw [s1]; exact hb2) j hj, s2 j hj, s4, zero_add]
    rfl

end RelaxSpec2

section RelaxClaim

variable {α : Type} [LinearOrderedField α]

/-- C3: a sweep applies the node update to `u = 0, 1, ..., n-1` in increasing order on the
evolving state; for a node `u` whose neighbour list does not contain `u`, the update leaves every
other vector unchanged and, with `acc = -(sum of the stored vectors of the neighbour entries)` and
`s = ||acc||^2`, stores `acc / sqrt s` when `s > 0` (no draw consumed) and otherwise `k` fresh
draws divided by their Euclidean norm; an empty neighbour list always takes the second branch. -/
theorem sweep_spec (sqrt : α → α) (gauss : Nat → α) (g : adjlist) (k : Nat) (emb : List α)
    (pos u : Nat) (hlen : emb.length = k * g.n) (hu : u < g.n) (hself : u ∉ nbrs g u) :
    sweep sqrt gauss g k (emb, pos)
      = (List.range g.n).foldl (fun st w => relax_node sqrt gauss g k w st) (emb, pos) ∧
    (relax_node sqrt gauss g k u (emb, pos)).1.length = emb.length ∧
    (∀ i, (i < k * u ∨ k * u + k ≤ i) →
      (relax_node sqrt gauss g k u (emb, pos)).1.getD i 0 = emb.getD i 0) ∧
    (0 < sqNorm k (negNeighbourSum g k emb u) →
      (relax_node sqrt gauss g k u (emb, pos)).2 = pos ∧
      ∀ j, j < k → (relax_node sqrt gauss g k u (emb, pos)).1.getD (k * u + j) 0
        = negNeighbourSum g k emb u j / sqrt (sqNorm k (negNeighbourSum g k emb u))) ∧
    (¬ 0 < sqNorm k (negNeighbourSum g k emb u) →
      (relax_node sqrt gauss g k u (emb, pos)).2 = pos + k ∧
      ∀ j, j < k → (relax_node sqrt gauss g k u (emb, pos)).1.getD (k * u + j) 0
        = gauss (pos + j) / sqrt (sqNorm k (fun j => gauss (pos + j)))) ∧
    (nbrs g u = [] → ¬ 0 < sqNorm k (negNeighbourSum g k emb u)) := by
  have hb : k * u + k ≤ emb.length := hlen ▸ block_in_bounds k g.n u hu
  have hacc := relax_node_acc g k u emb hb hself
  have hsq : sqNorm k (fun j => (accumulate g k u (bzero (k * u) k emb)).getD (k * u + j) 0)
      = sqNorm k (negNeighbourSum g k emb u) :=
    Finset.sum_congr rfl (fun j hj => by
      have := hacc j (Finset.mem_range.mp hj)
      simp only [this])
  have hfr := relax_node_frame sqrt gauss g k u (emb, pos)
  have hbl := relax_node_block sqrt gauss g k u (emb, pos) hb
  rw [hsq] at hbl
  refine ⟨forLoop_eq_foldl _ _ _, hfr.1, hfr.2, ?_, hbl.2, ?_⟩
  · intro hpos
    refine ⟨(hbl.1 hpos).1, fun j hj => ?_⟩
    rw [(hbl.1 hpos).2 j hj, hacc j hj]
  · intro hnil
    have : sqNorm k (negNeighbourSum g k emb u) = 0 := by
      unfold sqNorm negNeighbourSum
      rw [hnil]; simp
    rw [this]; exact lt_irrefl 0

theorem sweep_spec_witness :
    ([1, 1, 1] : List ℝ).length = 1 * sampleAdj.n ∧ 0 < sampleAdj.n ∧ 0 ∉ nbrs sampleAdj 0 ∧
    (0 < sqNorm 1 (negNeighbourSum sampleAdj 1 ([1, 1, 1] : List ℝ) 0) →
      (relax_node Real.sqrt (fun _ => (1 : ℝ)) sampleAdj 1 0 ([1, 1, 1], 0)).2 = 0 ∧
      ∀ j, j < 1 →
        (relax_node Real.sqrt (fun _ => (1 : ℝ)) sampleAdj 1 0 ([1, 1, 1], 0)).1.getD
          (1 * 0 + j) 0
        = negNeighbourSum sampleAdj 1 ([1, 1, 1] : List ℝ) 0 j
          / Real.sqrt (sqNorm 1 (negNeighbourSum sampleAdj 1 ([1, 1, 1] : List ℝ) 0))) :=
  ⟨by decide, by decide, by decide,
    (sweep_spec Real.sqrt (fun _ => (1 : ℝ)) sampleAdj 1 [1, 1, 1] 0 0
      (by decide) (by decide) (by decide)).2.2.2.1⟩

end RelaxClaim

/-! ## Relaxation engine: unit norms -/

section UnitNorm

theorem sqNorm_div_sqrt (k : Nat) (x : Nat → ℝ) (h : 0 < sqNorm k x) :
    sqNorm k (fun j => x j / Real.sqrt (sqNorm k x)) = 1 := by
  generalize hS : sqNorm k x = S at h ⊢
  have h1 : ∀ j, x j / Real.sqrt S * (x j / Real.sqrt S) = x j * x j / S := by
    intro j
    rw [div_mul_div_comm, Real.mul_self_sqrt (le_of_lt h)]
  unfold sqNorm at hS ⊢
  simp only [h1]
  rw [← Finset.sum_div, hS]
  exact div_self (ne_of_gt h)

theorem sqNorm_pos_of_ne {α : Type} [LinearOrderedField α] (k : Nat) (x : Nat → α)
    (h : ∃ j, j < k ∧ x j ≠ 0) : 0 < sqNorm k x := by
  obtain ⟨j, hj, hx⟩ := h
  have h1 : x j * x j ≤ sqNorm k x :=
    @Finset.single_le_sum _ _ _ (fun j => x j * x j) (Finset.range k)
      (fun i _ => mul_self_nonneg (x i)) j (Finset.mem_range.mpr hj)
  exact lt_of_lt_of_le (mul_self_pos.mpr hx) h1

theorem sqNorm_congr {α : Type} [LinearOrderedField α] (k : Nat) (x y : Nat → α)
    (h : ∀ j, j < k → x j = y j) : sqNorm k x = sqNorm k y :=
  Finset.sum_congr rfl (fun j hj => by rw [h j (Finset.mem_range.mp hj)])

/-- After the update of node `u` its stored vector has squared norm 1. -/
theorem relax_node_unit (gauss : Nat → ℝ) (g : adjlist) (k u : Nat) (st : List ℝ × Nat)
    (hb : k * u + k ≤ st.1.length) (hres : resample_ok gauss g k u st) :
    nodeSqNorm k (relax_node Real.sqrt gauss g k u st).1 u = 1 := by
  have hbl := relax_node_block Real.sqrt gauss g k u st hb
  unfold resample_ok at hres
  rw [sqnorm_loop_spec] at hres
  unfold nodeSqNorm
  by_cases hpos : 0 < sqNorm k
      (fun j => (accumulate g k u (bzero (k * u) k st.1)).getD (k * u + j) 0)
  · rw [sqNorm_congr k _ _ (hbl.1 hpos).2]
    exact sqNorm_div_sqrt k _ hpos
  · have hdraw : ∃ j, j < k ∧ gauss (st.2 + j) ≠ 0 := by
      rcases hres with h | h
      · exact absurd h hpos
      · exact h
    rw [sqNorm_congr k _ _ (hbl.2 hpos).2]
    exact sqNorm_div_sqrt k _ (sqNorm_pos_of_ne k _ hdraw)

theorem relax_node_other {α : Type} [LinearOrderedField α] (sqrt : α → α) (gauss : Nat → α)
    (g : adjlist) (k u w : Nat) (st : List α × Nat) (h : w ≠ u) :
    nodeSqNorm k (relax_node sqrt gauss g k u st).1 w = nodeSqNorm k st.1 w := by
  unfold nodeSqNorm
  apply sqNorm_congr
  intro j hj
  exact (relax_node_frame sqrt gauss g k u st).2 _ (block_disjoint k u w j hj h)

theorem relax_loop_length {α : Type} [LinearOrderedField α] (sqrt : α → α) (gauss : Nat → α)
    (g : adjlist) (k m : Nat) (st : List α × Nat) :
    (forLoop (relax_node sqrt gauss g k) m st).1.length = st.1.length := by
  induction m with
  | zero => rfl
  | succ m ih => rw [forLoop_succ, (relax_node_frame sqrt gauss g k m _).1, ih]

theorem init_embedding_length {α : Type} [LinearOrderedField α] (sqrt : α → α)
    (gauss : Nat → α) (junk : Nat → α) (n k pos : Nat) :
    (init_embedding sqrt gauss junk n k pos).1.length = k * n := by
  unfold init_embedding
  have key := forLoop_inv (fun _ (st : List α × Nat) => st.1.length = k * n)
    (fun i (st : List α × Nat) =>
      let r := sample_loop gauss (i * k) k st.1 0 st.2
      let s := sqrt r.2.1
      (divide_loop (i * k) k s r.1, r.2.2)) n (malloc junk (k * n), pos) (malloc_length _ _)
    (by
      intro i st _ h
      dsimp only
      rw [(divide_loop_frame _ _ _ _).1, (sample_loop_frame _ _ _ _ _ _).1, h])
  exact key

theorem spinmaxcut_length {α : Type} [LinearOrderedField α] (sqrt : α → α)
    (gauss : Nat → α) (junk : Nat → α) (g : adjlist) (k t pos : Nat) :
    (spinmaxcut sqrt gauss junk g k t pos).1.length = k * g.n := by
  unfold spinmaxcut
  induction t with
  | zero => exact init_embedding_length sqrt gauss junk g.n k pos
  | succ t ih =>
    rw [forLoop_succ]
    exact (relax_loop_length sqrt gauss g k g.n _).trans ih

/-- Unit norms established by the first `m` node updates of a sweep. -/
theorem relax_loop_unit (gauss : Nat → ℝ) (g : adjlist) (k : Nat) (st : List ℝ × Nat)
    (hlen : st.1.length = k * g.n) (m : Nat) (hm : m ≤ g.n)
    (hres : ∀ u, u < m →
      resample_ok gauss g k u (forLoop (relax_node Real.sqrt gauss g k) u st)) :
    ∀ u, u < m → nodeSqNorm k (forLoop (relax_node Real.sqrt gauss g k) m st).1 u = 1 := by
  induction m with
  | zero => intro u hu; omega
  | succ m ih =>
    intro u hu
    rw [forLoop_succ]
    by_cases hum : u = m
    · subst hum
      apply relax_node_unit _ _ _ _ _ _ (hres u (by omega))
      rw [relax_loop_length, hlen]
      exact block_in_bounds k g.n u (by omega)
    · rw [relax_node_other _ _ _ _ _ _ _ hum]
      exact ih (by omega) (fun w hw => hres w (by omega)) u (by omega)

/-- C4: after every relaxation sweep (sweep number `t + 1` of `spinmaxcut`, for every `t`),
every node's vector has Euclidean norm 1 in exact real arithmetic, for every graph, provided
each resample of that sweep uses `k` draws that are not all zero. -/
theorem spinmaxcut_unit_norm (gauss junk : Nat → ℝ) (g : adjlist) (k t pos : Nat)
    (hres : ∀ u, u < g.n → resample_ok gauss g k u
      (forLoop (relax_node Real.sqrt gauss g k) u (spinmaxcut Real.sqrt gauss junk g k t pos))) :
    ∀ u, u < g.n →
      Real.sqrt (nodeSqNorm k (spinmaxcut Real.sqrt gauss junk g k (t + 1) pos).1 u) = 1 := by
  intro u hu
  have h := relax_loop_unit gauss g k (spinmaxcut Real.sqrt gauss junk g k t pos)
    (spinmaxcut_length _ _ _ _ _ _ _) g.n le_rfl hres u hu
  have heq : spinmaxcut Real.sqrt gauss junk g k (t + 1) pos
      = forLoop (relax_node Real.sqrt gauss g k) g.n
          (spinmaxcut Real.sqrt gauss junk g k t pos) := rfl
  rw [heq, h, Real.sqrt_one]

theorem spinmaxcut_unit_norm_witness :
    (∀ u, u < sampleAdj.n → resample_ok (fun _ => (1 : ℝ)) sampleAdj 2 u
      (forLoop (relax_node Real.sqrt (fun _ => (1 : ℝ)) sampleAdj 2) u
        (spinmaxcut Real.sqrt (fun _ => (1 : ℝ)) (fun _ => 0) sampleAdj 2 0 0))) ∧
    ∀ u, u < sampleAdj.n →
      Real.sqrt (nodeSqNorm 2
        (spinmaxcut Real.sqrt (fun _ => (1 : ℝ)) (fun _ => 0) sampleAdj 2 (0 + 1) 0).1 u) = 1 :=
  ⟨fun _ _ => Or.inr ⟨0, by norm_num, by norm_num⟩,
    spinmaxcut_unit_norm (fun _ => (1 : ℝ)) (fun _ => 0) sampleAdj 2 0 0
      (fun _ _ => Or.inr ⟨0, by norm_num, by norm_num⟩)⟩

end UnitNorm

/-! ## Rounding and scoring engine -/

section Rounding

variable {α : Type} [LinearOrderedField α]

theorem direction_loop_spec (gauss : Nat → α) (k : Nat) (vect : List α) (pos : Nat)
    (hv : vect.length = k) :
    (direction_loop gauss k vect pos).1.length = k ∧
    (∀ j, j < k → (direction_loop gauss k vect pos).1.getD j 0 = gauss (pos + j)) ∧
    (direction_loop gauss k vect pos).2 = pos + k := by
  have key := forLoop_inv
    (fun m (st : List α × Nat) => st.1.length = k ∧
      (∀ j, j < m → st.1.getD j 0 = gauss (pos + j)) ∧ st.2 = pos + m)
    (fun j (st : List α × Nat) => (st.1.set j (gauss st.2), st.2 + 1)) k (vect, pos)
    ⟨hv, fun j hj => by omega, rfl⟩
    (by
      intro m st hm ⟨h1, h2, h3⟩
      dsimp only
      refine ⟨by simp [h1], ?_, by rw [h3]; rfl⟩
      intro j hj
      by_cases hjm : j = m
      · subst hjm
        rw [getD_set_self _ _ _ _ (by omega), h3]
      · rw [getD_set_other _ _ _ _ _ (Ne.symm hjm)]
        exact h2 j (by omega))
  exact key

theorem label_loop_spec (g : adjlist) (emb vect : List α) (k : Nat) (lab1 : List Int)
    (hl : lab1.length = g.n) (d : Nat → α) (hd : ∀ j, j < k → vect.getD j 0 = d j) :
    (label_loop g emb vect k lab1).length = g.n ∧
    ∀ u, u < g.n → (label_loop g emb vect k lab1).getD u 0 = specLabel k emb d u := by
  have key := forLoop_inv
    (fun m (lab : List Int) => lab.length = g.n ∧
      ∀ u, u < m → lab.getD u 0 = specLabel k emb d u)
    (fun u lab1 =>
      let tmp := k * u
      let s := forLoop (fun j s => s + emb.getD (tmp + j) 0 * vect.getD j 0) k (0 : α)
      if s < 0 then lab1.set u (-1) else lab1.set u 1) g.n lab1
    ⟨hl, fun u hu => by omega⟩
    (by
      intro m lab hm ⟨h1, h2⟩
      dsimp only
      have hs : forLoop (fun j s => s + emb.getD (k * m + j) 0 * vect.getD j 0) k (0 : α)
          = dotDir k emb d m := by
        rw [sum_loop_spec (fun j => emb.getD (k * m + j) 0 * vect.getD j 0), zero_add]
        exact Finset.sum_congr rfl (fun j hj => by rw [hd j (Finset.mem_range.mp hj)])
      rw [hs]
      constructor
      · split <;> simp [h1]
      · intro u hu
        by_cases hum : u = m
        · subst hum
          unfold specLabel
          by_cases hneg : dotDir k emb d u < 0
          · rw [if_pos hneg, getD_set_self _ _ _ _ (by omega), if_neg (not_le.mpr hneg)]
          · rw [if_neg hneg, getD_set_self _ _ _ _ (by omega), if_pos (not_lt.mp hneg)]
        · have hu2 : u < m := by omega
          split
          · rw [getD_set_other _ _ _ _ _ (Ne.symm hum)]; exact h2 u hu2
          · rw [getD_set_other _ _ _ _ _ (Ne.symm hum)]; exact h2 u hu2)
  exact key

theorem count_loop_le (g : adjlist) (lab1 : List Int) : count_loop g lab1 ≤ g.e := by
  have key := forLoop_inv (fun m (c : Nat) => c ≤ m)
    (fun i cut2 =>
      if lab1.getD (edgeAt g.edges i).s 0 ≠ lab1.getD (edgeAt g.edges i).t 0 then cut2 + 1
      else cut2) g.e 0 le_rfl
    (by
      intro m c _ h
      dsimp only
      split <;> omega)
  exact key

theorem count_loop_spec (g : adjlist) (lab1 : List Int) (he : g.e = g.edges.length) :
    count_loop g lab1
      = g.edges.countP (fun ed => lab1.getD ed.s 0 ≠ lab1.getD ed.t 0) := by
  have key := forLoop_inv
    (fun m (c : Nat) =>
      c = (g.edges.take m).countP (fun ed => lab1.getD ed.s 0 ≠ lab1.getD ed.t 0))
    (fun i cut2 =>
      if lab1.getD (edgeAt g.edges i).s 0 ≠ lab1.getD (edgeAt g.edges i).t 0 then cut2 + 1
      else cut2) g.e 0 (by simp)
    (by
      intro m c hm h
      dsimp only
      rw [take_succ_edgeAt _ _ (he ▸ hm), List.countP_append, ← h]
      by_cases hne : lab1.getD (edgeAt g.edges m).s 0 ≠ lab1.getD (edgeAt g.edges m).t 0
      · rw [if_pos hne, List.countP_cons, List.countP_nil, if_pos (decide_eq_true hne)]
      · rw [if_neg hne, List.countP_cons, List.countP_nil,
          if_neg (by rw [decide_eq_false hne]; exact Bool.false_ne_true)]
        rfl)
  have hfull : g.edges.take g.e = g.edges := by rw [he]; simp
  dsimp only at key
  rw [hfull] at key
  exact key

theorem count_loop_labels (g : adjlist) (h : wellFormed g) (k : Nat) (emb : List α)
    (d : Nat → α) (lab1 : List Int)
    (hlab : ∀ u, u < g.n → lab1.getD u 0 = specLabel k emb d u) :
    count_loop g lab1 = specTrialCut g k emb d := by
  rw [count_loop_spec g lab1 h.1]
  unfold specTrialCut
  apply List.countP_congr
  intro ed hed
  have hb := h.2 ed hed
  rw [hlab _ hb.1, hlab _ hb.2]

end Rounding

section Trials

variable {α : Type} [LinearOrderedField α]

/-- Effect of one trial on the variables of `hyperplanecut`. -/
theorem trial_spec (gauss : Nat → α) (g : adjlist) (emb : List α) (k : Nat) (st : roundState α)
    (h : wellFormed g) (hv : st.vect.length = k) (h1 : st.lab1.length = g.n)
    (h2 : st.lab2.length = g.n) :
    (trial gauss g emb k st).vect.length = k ∧
    (trial gauss g emb k st).lab1.length = g.n ∧
    (trial gauss g emb k st).lab2.length = g.n ∧
    (trial gauss g emb k st).pos = st.pos + k ∧
    (st.cut < specTrialCut g k emb (fun j => gauss (st.pos + j)) →
      (trial gauss g emb k st).cut = specTrialCut g k emb (fun j => gauss (st.pos + j)) ∧
      ∀ u, u < g.n → (trial gauss g emb k st).lab2.getD u 0
        = specLabel k emb (fun j => gauss (st.pos + j)) u) ∧
    (¬ st.cut < specTrialCut g k emb (fun j => gauss (st.pos + j)) →
      (trial gauss g emb k st).cut = st.cut ∧ (trial gauss g emb k st).lab2 = st.lab2) := by
  obtain ⟨d1, d2, d3⟩ := direction_loop_spec gauss k st.vect st.pos hv
  obtain ⟨l1, l2⟩ := label_loop_spec g emb (direction_loop gauss k st.vect st.pos).1 k st.lab1 h1
    (fun j => gauss (st.pos + j)) d2
  have hc := count_loop_labels g h k emb (fun j => gauss (st.pos + j)) _ l2
  unfold trial
  dsimp only
  rw [hc]
  by_cases hlt : st.cut < specTrialCut g k emb (fun j => gauss (st.pos + j))
  · rw [if_pos hlt]
    exact ⟨d1, h2, l1, d3, fun _ => ⟨rfl, l2⟩, fun hn => absurd hlt hn⟩
  · rw [if_neg hlt]
    exact ⟨d1, l1, h2, d3, fun hp => absurd hp hlt, fun _ => ⟨rfl, rfl⟩⟩

/-- State of `hyperplanecut` after `m` trials: `cut` is the greatest per-trial count so far, and
`lab2` is either the untouched `malloc`ed buffer (no trial had a positive count) or the labeling
of the first trial that reached `cut`. -/
theorem trial_loop_inv (gauss : Nat → α) (junkv : Nat → α) (junk1 junk2 : Nat → Int)
    (g : adjlist) (emb : List α) (k pos : Nat) (h : wellFormed g) (m : Nat) :
    (forLoop (fun _ st => trial gauss g emb k st) m
      { vect := malloc junkv k, lab1 := malloc junk1 g.n, lab2 := malloc junk2 g.n,
        cut := 0, pos := pos }).vect.length = k ∧
    (forLoop (fun _ st => trial gauss g emb k st) m
      { vect := malloc junkv k, lab1 := malloc junk1 g.n, lab2 := malloc junk2 g.n,
        cut := 0, pos := pos }).lab1.length = g.n ∧
    (forLoop (fun _ st => trial gauss g emb k st) m
      { vect := malloc junkv k, lab1 := malloc junk1 g.n, lab2 := malloc junk2 g.n,
        cut := 0, pos := pos }).lab2.length = g.n ∧
    (forLoop (fun _ st => trial gauss g emb k st) m
      { vect := malloc junkv k, lab1 := malloc junk1 g.n, lab2 := malloc junk2 g.n,
        cut := 0, pos := pos }).pos = pos + m * k ∧
    (∀ l, l < m → specTrialCut g k emb (trialDir gauss k pos l) ≤
      (forLoop (fun _ st => trial gauss g emb k st) m
        { vect := malloc junkv k, lab1 := malloc junk1 g.n, lab2 := malloc junk2 g.n,
          cut := 0, pos := pos }).cut) ∧
    (((forLoop (fun _ st => trial gauss g emb k st) m
        { vect := malloc junkv k, lab1 := malloc junk1 g.n, lab2 := malloc junk2 g.n,
          cut := 0, pos := pos }).cut = 0 ∧
      (forLoop (fun _ st => trial gauss g emb k st) m
        { vect := malloc junkv k, lab1 := malloc junk1 g.n, lab2 := malloc junk2 g.n,
          cut := 0, pos := pos }).lab2 = malloc junk2 g.n) ∨
     (0 < (forLoop (fun _ st => trial gauss g emb k st) m
        { vect := malloc junkv k, lab1 := malloc junk1 g.n, lab2 := malloc junk2 g.n,
          cut := 0, pos := pos }).cut ∧
      ∃ l, l < m ∧ specTrialCut g k emb (trialDir gauss k pos l) =
        (forLoop (fun _ st => trial gauss g emb k st) m
          { vect := malloc junkv k, lab1 := malloc junk1 g.n, lab2 := malloc junk2 g.n,
            cut := 0, pos := pos }).cut ∧
        (∀ l2, l2 < l → specTrialCut g k emb (trialDir gauss k pos l2) <
          (forLoop (fun _ st => trial gauss g emb k st) m
            { vect := malloc junkv k, lab1 := malloc junk1 g.n, lab2 := malloc junk2 g.n,
              cut := 0, pos := pos }).cut) ∧
        ∀ u, u < g.n →
          (forLoop (fun _ st => trial gauss g emb k st) m
            { vect := malloc junkv k, lab1 := malloc junk1 g.n, lab2 := malloc junk2 g.n,
              cut := 0, pos := pos }).lab2.getD u 0
            = specLabel k emb (trialDir gauss k pos l) u)) := by
  induction m with
  | zero =>
    exact ⟨malloc_length _ _, malloc_length _ _, malloc_length _ _, by simp [forLoop],
      fun l hl => by omega, Or.inl ⟨rfl, rfl⟩⟩
  | succ m ih =>
    rw [forLoop_succ]
    generalize forLoop (fun _ st => trial gauss g emb k st) m
      { vect := malloc junkv k, lab1 := malloc junk1 g.n, lab2 := malloc junk2 g.n,
        cut := 0, pos := pos } = S at ih
    obtain ⟨i1, i2, i3, i4, i5, i6⟩ := ih
    obtain ⟨t1, t2, t3, t4, t5, t6⟩ := trial_spec gauss g emb k S h i1 i2 i3
    have hdir : (fun j => gauss (S.pos + j)) = trialDir gauss k pos m := by
      funext j; rw [i4]; rfl
    rw [hdir] at t5 t6
    refine ⟨t1, t2, t3, by rw [t4, i4]; ring, ?_, ?_⟩
    · intro l hl
      by_cases hlt : S.cut < specTrialCut g k emb (trialDir gauss k pos m)
      · rw [(t5 hlt).1]
        by_cases hlm : l = m
        · rw [hlm]
        · have := i5 l (by omega); omega
      · rw [(t6 hlt).1]
        by_cases hlm : l = m
        · rw [hlm]; omega
        · exact i5 l (by omega)
    · by_cases hlt : S.cut < specTrialCut g k emb (trialDir gauss k pos m)
      · right
        rw [(t5 hlt).1]
        refine ⟨by omega, m, by omega, rfl, ?_, (t5 hlt).2⟩
        intro l2 hl2
        have := i5 l2 hl2; omega
      · rw [(t6 hlt).1, (t6 hlt).2]
        rcases i6 with ⟨a, b⟩ | ⟨a, l, hl, b, c, d⟩
        · exact Or.inl ⟨a, b⟩
        · exact Or.inr ⟨a, l, by omega, b, c, d⟩

theorem trial_loop_cut_le (gauss : Nat → α) (g : adjlist) (emb : List α) (k : Nat)
    (st : roundState α) (hst : st.cut ≤ g.e) (m : Nat) :
    (forLoop (fun _ st => trial gauss g emb k st) m st).cut ≤ g.e := by
  induction m with
  | zero => exact hst
  | succ m ih =>
    rw [forLoop_succ]
    unfold trial
    dsimp only
    split
    · exact count_loop_le g _
    · exact ih

end Trials

section RoundingClaims

variable {α : Type} [LinearOrderedField α]

theorem specTrialCut_dim_zero (g : adjlist) (emb : List α) (d : Nat → α) :
    specTrialCut g 0 emb d = 0 := by
  unfold specTrialCut
  rw [List.countP_eq_zero]
  intro ed _
  simp [specLabel, dotDir]

/-- When no trial cuts an edge, `hyperplanecut` reports 0 and returns the `malloc`ed buffer
`lab2` as it was allocated. -/
theorem hyperplanecut_lab_untouched (gauss : Nat → α) (junkv : Nat → α)
    (junk1 junk2 : Nat → Int) (g : adjlist) (emb : List α) (k pos : Nat) (h : wellFormed g)
    (hz : ∀ l, l < 10 → specTrialCut g k emb (trialDir gauss k pos l) = 0) :
    (hyperplanecut gauss junkv junk1 junk2 g emb k pos).cut = 0 ∧
    (hyperplanecut gauss junkv junk1 junk2 g emb k pos).lab = malloc junk2 g.n := by
  obtain ⟨_, _, _, _, _, i6⟩ := trial_loop_inv gauss junkv junk1 junk2 g emb k pos h 10
  unfold hyperplanecut
  dsimp only
  rcases i6 with ⟨a, b⟩ | ⟨a, l, hl, b, _, _⟩
  · exact ⟨a, b⟩
  · rw [hz l hl] at b
    omega

/-- C5: the cut size reported by `hyperplanecut` satisfies `0 ≤ cut ≤ e`, for every graph,
embedding, dimension and stream of draws. -/
theorem hyperplanecut_cut_bounds (gauss : Nat → α) (junkv : Nat → α) (junk1 junk2 : Nat → Int)
    (g : adjlist) (emb : List α) (k pos : Nat) :
    0 ≤ (hyperplanecut gauss junkv junk1 junk2 g emb k pos).cut ∧
    (hyperplanecut gauss junkv junk1 junk2 g emb k pos).cut ≤ g.e :=
  ⟨Nat.zero_le _, trial_loop_cut_le gauss g emb k _ (Nat.zero_le _) 10⟩

/-- C7: the cut size reported by `hyperplanecut` is the maximum over its 10 trials of the
per-trial cut count, where trial `l` labels node `u` by the sign test `0 ≤ ⟨vector u, d⟩` on its
`k` draws `d` and counts the edges of the stored sequence whose endpoint labels differ; an edge
`(a,a)` never counts. -/
theorem hyperplanecut_cut_max (gauss : Nat → α) (junkv : Nat → α) (junk1 junk2 : Nat → Int)
    (g : adjlist) (emb : List α) (k pos : Nat) (h : wellFormed g) :
    (∀ l, l < 10 → specTrialCut g k emb (trialDir gauss k pos l)
      ≤ (hyperplanecut gauss junkv junk1 junk2 g emb k pos).cut) ∧
    (∃ l, l < 10 ∧ (hyperplanecut gauss junkv junk1 junk2 g emb k pos).cut
      = specTrialCut g k emb (trialDir gauss k pos l)) ∧
    (∀ d : Nat → α, specTrialCut g k emb d ≤ g.edges.countP (fun ed => ed.s ≠ ed.t)) := by
  obtain ⟨_, _, _, _, i5, i6⟩ := trial_loop_inv gauss junkv junk1 junk2 g emb k pos h 10
  refine ⟨i5, ?_, ?_⟩
  · rcases i6 with ⟨a, _⟩ | ⟨_, l, hl, b, _, _⟩
    · refine ⟨0, by omega, ?_⟩
      have := i5 0 (by omega)
      unfold hyperplanecut
      dsimp only
      omega
    · exact ⟨l, hl, b.symm⟩
  · intro d
    unfold specTrialCut
    apply List.countP_mono_left
    intro ed _ hne
    simp only [decide_eq_true_eq] at hne ⊢
    intro hst
    rw [hst] at hne
    exact hne rfl

theorem hyperplanecut_cut_max_witness :
    wellFormed sampleGraph ∧
    (∀ l, l < 10 → specTrialCut sampleGraph 2 ([1, 0, 0, 1, -1, 0] : List ℚ)
        (trialDir (fun i => (i : ℚ) - 3) 2 0 l)
      ≤ (hyperplanecut (fun i => (i : ℚ) - 3) (fun _ => 0) (fun _ => 0) (fun _ => 0) sampleGraph
          [1, 0, 0, 1, -1, 0] 2 0).cut) ∧
    (∃ l, l < 10 ∧
      (hyperplanecut (fun i => (i : ℚ) - 3) (fun _ => 0) (fun _ => 0) (fun _ => 0) sampleGraph
          [1, 0, 0, 1, -1, 0] 2 0).cut
      = specTrialCut sampleGraph 2 ([1, 0, 0, 1, -1, 0] : List ℚ)
          (trialDir (fun i => (i : ℚ) - 3) 2 0 l)) ∧
    (∀ d : Nat → ℚ, specTrialCut sampleGraph 2 ([1, 0, 0, 1, -1, 0] : List ℚ) d
      ≤ sampleGraph.edges.countP (fun ed => ed.s ≠ ed.t)) :=
  ⟨by decide, hyperplanecut_cut_max (fun i => (i : ℚ) - 3) (fun _ => 0) (fun _ => 0)
    (fun _ => 0) sampleGraph [1, 0, 0, 1, -1, 0] 2 0 (by decide)⟩

/-- C8 (evaluation at a failing input): on the graph of the edge list `0 0`, for every
embedding, dimension and stream of draws, every trial has cut count 0, so trial 0 is the earliest
trial with the greatest count; `hyperplanecut` nevertheless returns the buffer `lab2` as `malloc`
left it (here holding 0), which is the labeling of no trial. -/
theorem hyperplanecut_lab_self_loop (gauss : Nat → α) (junkv : Nat → α) (junk1 : Nat → Int)
    (emb : List α) (k pos : Nat) :
    (∀ l, l < 10 → specTrialCut loopGraph k emb (trialDir gauss k pos l) = 0) ∧
    (hyperplanecut gauss junkv junk1 (fun _ => 0) loopGraph emb k pos).cut = 0 ∧
    (hyperplanecut gauss junkv junk1 (fun _ => 0) loopGraph emb k pos).lab = [0] ∧
    ∀ l, (hyperplanecut gauss junkv junk1 (fun _ => 0) loopGraph emb k pos).lab
      ≠ [specLabel k emb (trialDir gauss k pos l) 0] := by
  have hz : ∀ l, l < 10 → specTrialCut loopGraph k emb (trialDir gauss k pos l) = 0 := by
    intro l _
    simp [specTrialCut, loopGraph]
  obtain ⟨h1, h2⟩ := hyperplanecut_lab_untouched gauss junkv junk1 (fun _ => 0) loopGraph emb k
    pos (by decide) hz
  have h3 : (hyperplanecut gauss junkv junk1 (fun _ => 0) loopGraph emb k pos).lab = [0] := by
    rw [h2]; rfl
  refine ⟨hz, h1, h3, ?_⟩
  intro l
  rw [h3]
  unfold specLabel
  split <;> simp

/-- C9 (evaluation at a failing input): with `k = 0` on the sample graph `hyperplanecut`
reports cut size 0, and the labeling it returns is the buffer `lab2` as `malloc` left it (here
holding 5 in every cell), not the all `+1` labeling. -/
theorem hyperplanecut_dim_zero_sample (gauss : Nat → α) (junkv : Nat → α) (junk1 : Nat → Int)
    (emb : List α) (pos : Nat) :
    (hyperplanecut gauss junkv junk1 (fun _ => 5) sampleGraph emb 0 pos).cut = 0 ∧
    (hyperplanecut gauss junkv junk1 (fun _ => 5) sampleGraph emb 0 pos).lab = [5, 5, 5] ∧
    ¬ (∀ u, u < sampleGraph.n →
      (hyperplanecut gauss junkv junk1 (fun _ => 5) sampleGraph emb 0 pos).lab.getD u 0 = 1) := by
  obtain ⟨h1, h2⟩ := hyperplanecut_lab_untouched gauss junkv junk1 (fun _ => 5) sampleGraph emb 0
    pos (by decide) (fun l _ => specTrialCut_dim_zero _ _ _)
  have h3 : (hyperplanecut gauss junkv junk1 (fun _ => 5) sampleGraph emb 0 pos).lab
      = [5, 5, 5] := by
    rw [h2]; rfl
  refine ⟨h1, h3, ?_⟩
  intro hall
  have := hall 0 (by decide)
  rw [h3] at this
  exact absurd this (by decide)

/-- C10: for a graph with `e = 0`, `hyperplanecut` reports cut size 0 and SDP objective 0, for
every `n`, `k`, embedding and stream of draws. -/
theorem hyperplanecut_no_edges (gauss : Nat → α) (junkv : Nat → α) (junk1 junk2 : Nat → Int)
    (g : adjlist) (emb : List α) (k pos : Nat) (he : g.e = 0) :
    (hyperplanecut gauss junkv junk1 junk2 g emb k pos).cut = 0 ∧
    (hyperplanecut gauss junkv junk1 junk2 g emb k pos).cutsdp = 0 := by
  constructor
  · have := trial_loop_cut_le gauss g emb k
      { vect := malloc junkv k, lab1 := malloc junk1 g.n, lab2 := malloc junk2 g.n,
        cut := 0, pos := pos } (Nat.zero_le _) 10
    unfold hyperplanecut
    dsimp only
    omega
  · unfold hyperplanecut sdp_loop
    dsimp only
    rw [he]
    simp [forLoop]

theorem hyperplanecut_no_edges_witness :
    ({ n := 1, e := 0, edges := [], cd := [0, 0], adj := [] } : adjlist).e = 0 ∧
    (hyperplanecut (fun _ => (1 : ℝ)) (fun _ => 0) (fun _ => 0) (fun _ => 0)
      { n := 1, e := 0, edges := [], cd := [0, 0], adj := [] } [1, 0] 2 2).cut = 0 ∧
    (hyperplanecut (fun _ => (1 : ℝ)) (fun _ => 0) (fun _ => 0) (fun _ => 0)
      { n := 1, e := 0, edges := [], cd := [0, 0], adj := [] } [1, 0] 2 2).cutsdp = 0 :=
  ⟨rfl, hyperplanecut_no_edges (fun _ => (1 : ℝ)) (fun _ => 0) (fun _ => 0) (fun _ => 0)
    { n := 1, e := 0, edges := [], cd := [0, 0], adj := [] } [1, 0] 2 2 rfl⟩

end RoundingClaims

/-! ## Initial embedding -/

section InitLemmas

theorem init_embedding_spec {α : Type} [LinearOrderedField α] (sqrt : α → α)
    (gauss : Nat → α) (junk : Nat → α) (n k pos : Nat) :
    (init_embedding sqrt gauss junk n k pos).2 = pos + n * k ∧
    ∀ i, i < n → ∀ j, j < k → (init_embedding sqrt gauss junk n k pos).1.getD (i * k + j) 0
      = gauss (pos + i * k + j) / sqrt (sqNorm k (fun j => gauss (pos + i * k + j))) := by
  unfold init_embedding
  have key := forLoop_inv
    (fun m (st : List α × Nat) => st.1.length = k * n ∧ st.2 = pos + m * k ∧
      ∀ i, i < m → ∀ j, j < k → st.1.getD (i * k + j) 0
        = gauss (pos + i * k + j) / sqrt (sqNorm k (fun j => gauss (pos + i * k + j))))
    (fun i (st : List α × Nat) =>
      let r := sample_loop gauss (i * k) k st.1 0 st.2
      let s := sqrt r.2.1
      (divide_loop (i * k) k s r.1, r.2.2)) n (malloc junk (k * n), pos)
    ⟨malloc_length _ _, by simp, fun i hi => by omega⟩
    (by
      intro m st hm ⟨h1, h2, h3⟩
      dsimp only
      have hb : m * k + k ≤ st.1.length := by
        rw [h1, Nat.mul_comm m k]; exact block_in_bounds k n m hm
      obtain ⟨s1, s2, s3, s4, s5⟩ := sample_loop_spec gauss (m * k) k st.1 0 st.2 hb
      have hd := divide_loop_frame (m * k) k (sqrt (sample_loop gauss (m * k) k st.1 0 st.2).2.1)
        (sample_loop gauss (m * k) k st.1 0 st.2).1
      have hv := divide_loop_spec (m * k) k (sqrt (sample_loop gauss (m * k) k st.1 0 st.2).2.1)
        (sample_loop gauss (m * k) k st.1 0 st.2).1 (by rw [s1]; exact hb)
      refine ⟨by rw [hd.1, s1, h1], by rw [s5, h2]; ring, ?_⟩
      intro i hi j hj
      by_cases him : i = m
      · subst him
        rw [hv j hj, s2 j hj, s4, zero_add, h2]
        rfl
      · have hlt : i < m := by omega
        have hdis : i * k + j < m * k := by
          have := block_in_bounds k m i hlt
          rw [Nat.mul_comm i k, Nat.mul_comm m k]; omega
        rw [hd.2 _ (Or.inl hdis), s3 _ (Or.inl hdis)]
        exact h3 i hlt j hj)
  exact ⟨key.2.1, key.2.2⟩

theorem init_embedding_unit (gauss junk : Nat → ℝ) (n k pos : Nat)
    (hdraw : ∀ p, ∃ j, j < k ∧ gauss (p + j) ≠ 0) :
    ∀ u, u < n → nodeSqNorm k (init_embedding Real.sqrt gauss junk n k pos).1 u = 1 := by
  intro u hu
  unfold nodeSqNorm
  rw [sqNorm_congr k _ (fun j => gauss (pos + u * k + j)
    / Real.sqrt (sqNorm k (fun j => gauss (pos + u * k + j))))
    (fun j hj => by
      rw [Nat.mul_comm k u]
      exact (init_embedding_spec Real.sqrt gauss junk n k pos).2 u hu j hj)]
  exact sqNorm_div_sqrt k _ (sqNorm_pos_of_ne k _ (hdraw (pos + u * k)))

/-- Every vector returned by `spinmaxcut` has squared norm 1 when no window of `k` consecutive
draws is all zero. -/
theorem spinmaxcut_unit (gauss junk : Nat → ℝ) (g : adjlist) (k t pos : Nat)
    (hdraw : ∀ p, ∃ j, j < k ∧ gauss (p + j) ≠ 0) :
    ∀ u, u < g.n → nodeSqNorm k (spinmaxcut Real.sqrt gauss junk g k t pos).1 u = 1 := by
  cases t with
  | zero => exact init_embedding_unit gauss junk g.n k pos hdraw
  | succ t =>
    exact relax_loop_unit gauss g k (spinmaxcut Real.sqrt gauss junk g k t pos)
      (spinmaxcut_length _ _ _ _ _ _ _) g.n le_rfl (fun u _ => Or.inr (hdraw _))

end InitLemmas

/-! ## Cut size against the SDP objective -/

section CutVersusSdp

theorem sdp_loop_spec {α : Type} [LinearOrderedField α] (g : adjlist) (emb : List α) (k : Nat)
    (he : g.e = g.edges.length) :
    sdp_loop g emb k = (g.edges.map (fun ed => Finset.sum (Finset.range k)
      (fun j => emb.getD (ed.s * k + j) 0 * emb.getD (ed.t * k + j) 0))).sum := by
  have key := forLoop_inv
    (fun m (c : α) => c = ((g.edges.take m).map (fun ed => Finset.sum (Finset.range k)
      (fun j => emb.getD (ed.s * k + j) 0 * emb.getD (ed.t * k + j) 0))).sum)
    (fun i c =>
      forLoop (fun j c =>
        c + emb.getD ((edgeAt g.edges i).s * k + j) 0 * emb.getD ((edgeAt g.edges i).t * k + j) 0)
        k c) g.e 0 (by simp)
    (by
      intro m c hm h
      dsimp only
      rw [sum_loop_spec (fun j => emb.getD ((edgeAt g.edges m).s * k + j) 0
        * emb.getD ((edgeAt g.edges m).t * k + j) 0), take_succ_edgeAt _ _ (he ▸ hm),
        List.map_append, List.sum_append, ← h]
      simp)
  have hfull : g.edges.take g.e = g.edges := by rw [he]; simp
  dsimp only at key
  rw [hfull] at key
  exact key

theorem unit_cases (x : ℝ) (h : x * x = 1) : x = 1 ∨ x = -1 := by
  have h2 : (x - 1) * (x + 1) = 0 := by ring_nf; rw [sq]; linarith
  rcases mul_eq_zero.mp h2 with h3 | h3
  · left; linarith
  · right; linarith

/-- In dimension 1 an edge between unit spins whose labels differ contributes 1 to the SDP
objective, and any other edge contributes a non-negative amount. -/
theorem edge_term_dim_one (emb : List ℝ) (d : Nat → ℝ) (a b : Nat)
    (ha : nodeSqNorm 1 emb a = 1) (hb : nodeSqNorm 1 emb b = 1) :
    ((if specLabel 1 emb d a ≠ specLabel 1 emb d b then 1 else 0 : Nat) : ℝ)
      ≤ (1 - emb.getD (a * 1 + 0) 0 * emb.getD (b * 1 + 0) 0) / 2 := by
  simp only [nodeSqNorm, sqNorm, Finset.sum_range_one, Nat.mul_one, Nat.one_mul,
    Nat.add_zero] at ha hb ⊢
  simp only [specLabel, dotDir, Finset.sum_range_one, Nat.one_mul, Nat.add_zero]
  generalize emb.getD a 0 = x at ha ⊢
  generalize emb.getD b 0 = y at hb ⊢
  rcases unit_cases x ha with hx | hx <;> rcases unit_cases y hb with hy | hy <;>
    subst hx <;> subst hy <;> split_ifs <;> first | contradiction | norm_num

theorem countP_le_sdp_dim_one (emb : List ℝ) (d : Nat → ℝ) (n : Nat) (l : List edge)
    (hunit : ∀ u, u < n → nodeSqNorm 1 emb u = 1)
    (hl : ∀ ed ∈ l, ed.s < n ∧ ed.t < n) :
    ((l.countP (fun ed => specLabel 1 emb d ed.s ≠ specLabel 1 emb d ed.t) : Nat) : ℝ)
      ≤ ((l.length : ℝ) - (l.map (fun ed => Finset.sum (Finset.range 1)
          (fun j => emb.getD (ed.s * 1 + j) 0 * emb.getD (ed.t * 1 + j) 0))).sum) / 2 := by
  induction l with
  | nil => simp
  | cons ed l ih =>
    have hb := hl ed (by simp)
    have h1 := edge_term_dim_one emb d ed.s ed.t (hunit _ hb.1) (hunit _ hb.2)
    have h2 := ih (fun x hx => hl x (by simp [hx]))
    rw [List.countP_cons, List.map_cons, List.sum_cons, List.length_cons]
    simp only [Finset.sum_range_one, decide_eq_true_eq] at h2 ⊢
    push_cast
    push_cast at h1
    linarith

theorem cut_le_sdp_of_unit_dim_one (gauss junkv : Nat → ℝ) (junk1 junk2 : Nat → Int)
    (g : adjlist) (emb : List ℝ) (pos : Nat) (h : wellFormed g)
    (hunit : ∀ u, u < g.n → nodeSqNorm 1 emb u = 1) :
    ((hyperplanecut gauss junkv junk1 junk2 g emb 1 pos).cut : ℝ)
      ≤ (hyperplanecut gauss junkv junk1 junk2 g emb 1 pos).cutsdp := by
  obtain ⟨_, _, _, _, i5, i6⟩ := trial_loop_inv gauss junkv junk1 junk2 g emb 1 pos h 10
  have hcut : ∃ l, (hyperplanecut gauss junkv junk1 junk2 g emb 1 pos).cut
      = specTrialCut g 1 emb (trialDir gauss 1 pos l) := by
    unfold hyperplanecut
    dsimp only
    rcases i6 with ⟨a, _⟩ | ⟨_, l, _, b, _, _⟩
    · have := i5 0 (by omega)
      exact ⟨0, by omega⟩
    · exact ⟨l, b.symm⟩
  obtain ⟨l, hl⟩ := hcut
  rw [hl]
  have hs : (hyperplanecut gauss junkv junk1 junk2 g emb 1 pos).cutsdp
      = ((g.e : ℝ) - sdp_loop g emb 1) / 2 := rfl
  rw [hs, sdp_loop_spec g emb 1 h.1, h.1]
  exact countP_le_sdp_dim_one emb _ g.n g.edges hunit h.2

/-- C6 (amended): in dimension `k = 1`, for every graph with endpoints below `n`, every number of
sweeps `t` (0 included) and every stream of non-zero draws, the cut size returned by
`hyperplanecut` on the embedding produced by `spinmaxcut` is at most the SDP objective, in exact
real arithmetic. -/
theorem cut_le_sdp_dim_one (gauss junk junkv : Nat → ℝ) (junk1 junk2 : Nat → Int)
    (g : adjlist) (t pos : Nat) (h : wellFormed g) (hdraw : ∀ i, gauss i ≠ 0) :
    ((hyperplanecut gauss junkv junk1 junk2 g (spinmaxcut Real.sqrt gauss junk g 1 t pos).1 1
        (spinmaxcut Real.sqrt gauss junk g 1 t pos).2).cut : ℝ)
      ≤ (hyperplanecut gauss junkv junk1 junk2 g (spinmaxcut Real.sqrt gauss junk g 1 t pos).1 1
        (spinmaxcut Real.sqrt gauss junk g 1 t pos).2).cutsdp :=
  cut_le_sdp_of_unit_dim_one gauss junkv junk1 junk2 g _ _ h
    (spinmaxcut_unit gauss junk g 1 t pos (fun p => ⟨0, Nat.one_pos, hdraw (p + 0)⟩))

theorem cut_le_sdp_dim_one_witness :
    wellFormed sampleAdj ∧ (∀ i : Nat, (fun _ => (1 : ℝ)) i ≠ 0) ∧
    ((hyperplanecut (fun _ => (1 : ℝ)) (fun _ => 0) (fun _ => 0) (fun _ => 0) sampleAdj
        (spinmaxcut Real.sqrt (fun _ => (1 : ℝ)) (fun _ => 0) sampleAdj 1 3 0).1 1
        (spinmaxcut Real.sqrt (fun _ => (1 : ℝ)) (fun _ => 0) sampleAdj 1 3 0).2).cut : ℝ)
      ≤ (hyperplanecut (fun _ => (1 : ℝ)) (fun _ => 0) (fun _ => 0) (fun _ => 0) sampleAdj
        (spinmaxcut Real.sqrt (fun _ => (1 : ℝ)) (fun _ => 0) sampleAdj 1 3 0).1 1
        (spinmaxcut Real.sqrt (fun _ => (1 : ℝ)) (fun _ => 0) sampleAdj 1 3 0).2).cutsdp :=
  ⟨by decide, fun _ => one_ne_zero,
    cut_le_sdp_dim_one (fun _ => (1 : ℝ)) (fun _ => 0) (fun _ => 0) (fun _ => 0) (fun _ => 0)
      sampleAdj 3 0 (by decide) (fun _ => one_ne_zero)⟩

end CutVersusSdp

section CutVersusSdpCounterexample

theorem altDraws_init :
    (spinmaxcut Real.sqrt (altDraws : Nat → ℝ) (fun _ => 0) pairGraph 2 0 0).2 = 4 ∧
    (spinmaxcut Real.sqrt (altDraws : Nat → ℝ) (fun _ => 0) pairGraph 2 0 0).1.getD 0 0 = 1 ∧
    (spinmaxcut Real.sqrt (altDraws : Nat → ℝ) (fun _ => 0) pairGraph 2 0 0).1.getD 1 0 = 0 ∧
    (spinmaxcut Real.sqrt (altDraws : Nat → ℝ) (fun _ => 0) pairGraph 2 0 0).1.getD 2 0 = 0 ∧
    (spinmaxcut Real.sqrt (altDraws : Nat → ℝ) (fun _ => 0) pairGraph 2 0 0).1.getD 3 0 = 1 := by
  have h := init_embedding_spec Real.sqrt (altDraws : Nat → ℝ) (fun _ => 0) 2 2 0
  have e : spinmaxcut Real.sqrt (altDraws : Nat → ℝ) (fun _ => 0) pairGraph 2 0 0
      = init_embedding Real.sqrt (altDraws : Nat → ℝ) (fun _ => 0) 2 2 0 := rfl
  rw [e]
  refine ⟨h.1, ?_, ?_, ?_, ?_⟩
  · have := h.2 0 (by norm_num) 0 (by norm_num)
    simpa [sqNorm, altDraws, Finset.sum_range_succ] using this
  · have := h.2 0 (by norm_num) 1 (by norm_num)
    simpa [sqNorm, altDraws, Finset.sum_range_succ] using this
  · have := h.2 1 (by norm_num) 0 (by norm_num)
    simpa [sqNorm, altDraws, Finset.sum_range_succ] using this
  · have := h.2 1 (by norm_num) 1 (by norm_num)
    simpa [sqNorm, altDraws, Finset.sum_range_succ] using this

/-- C6 (counterexample): on the graph of the edge list `0 1`, with `k = 2`, `t = 0` and the draws
`1, 0, 0, 1` (initial vectors `(1,0)` and `(0,1)`) followed by the direction `(1,-1)`, the
reported cut size is 1 while the SDP objective is `1/2`. -/
theorem cut_gt_sdp_dim_two :
    ¬ (((hyperplanecut (altDraws : Nat → ℝ) (fun _ => 0) (fun _ => 0) (fun _ => 0) pairGraph
          (spinmaxcut Real.sqrt (altDraws : Nat → ℝ) (fun _ => 0) pairGraph 2 0 0).1 2
          (spinmaxcut Real.sqrt (altDraws : Nat → ℝ) (fun _ => 0) pairGraph 2 0 0).2).cut : ℝ)
        ≤ (hyperplanecut (altDraws : Nat → ℝ) (fun _ => 0) (fun _ => 0) (fun _ => 0) pairGraph
          (spinmaxcut Real.sqrt (altDraws : Nat → ℝ) (fun _ => 0) pairGraph 2 0 0).1 2
          (spinmaxcut Real.sqrt (altDraws : Nat → ℝ) (fun _ => 0) pairGraph 2 0 0).2).cutsdp) := by
  obtain ⟨hp, e0, e1, e2, e3⟩ := altDraws_init
  rw [hp]
  generalize (spinmaxcut Real.sqrt (altDraws : Nat → ℝ) (fun _ => 0) pairGraph 2 0 0).1 = emb
    at e0 e1 e2 e3
  have hwf : wellFormed pairGraph := by decide
  have f0 := e0
  have f1 := e1
  have f2 := e2
  have f3 := e3
  rw [List.getD_eq_getElem?_getD] at f0 f1 f2 f3
  obtain ⟨_, _, _, _, i5, _⟩ := trial_loop_inv (altDraws : Nat → ℝ) (fun _ => 0) (fun _ => 0)
    (fun _ => 0) pairGraph emb 2 4 hwf 10
  have hc := i5 0 (by norm_num)
  have h1 : specTrialCut pairGraph 2 emb (trialDir (altDraws : Nat → ℝ) 2 4 0) = 1 := by
    simp [specTrialCut, pairGraph, specLabel, dotDir, trialDir, altDraws,
      Finset.sum_range_succ, List.countP_cons, f0, f1, f2, f3]
    norm_num
  rw [h1] at hc
  have hcut : 1 ≤ (hyperplanecut (altDraws : Nat → ℝ) (fun _ => 0) (fun _ => 0) (fun _ => 0)
      pairGraph emb 2 4).cut := hc
  have hs : (hyperplanecut (altDraws : Nat → ℝ) (fun _ => 0) (fun _ => 0) (fun _ => 0)
      pairGraph emb 2 4).cutsdp = 1 / 2 := by
    show ((pairGraph.e : ℝ) - sdp_loop pairGraph emb 2) / 2 = 1 / 2
    rw [sdp_loop_spec pairGraph emb 2 rfl]
    simp [pairGraph, Finset.sum_range_succ, f0, f1, f2, f3]
  rw [hs]
  intro hle
  have : (1 : ℝ) ≤ ((hyperplanecut (altDraws : Nat → ℝ) (fun _ => 0) (fun _ => 0) (fun _ => 0)
      pairGraph emb 2 4).cut : ℝ) := by exact_mod_cast hcut
  linarith

end CutVersusSdpCounterexample

/-! ## Graph store: `readedgelist` -/

theorem max3_eq (a b c : Nat) : max3 a b c = max (max a b) c := by
  unfold max3
  dsimp only
  split <;> split <;> omega

theorem foldl_max_init (l : List Nat) (a : Nat) : l.foldl max a = max a (l.foldl max 0) := by
  induction l generalizing a with
  | nil => simp
  | cons x l ih =>
    rw [List.foldl_cons, List.foldl_cons, ih (max a x), ih (max 0 x)]
    omega

theorem maxId_cons (p : Nat × Nat) (l : List (Nat × Nat)) :
    maxId (p :: l) = max (max p.1 p.2) (maxId l) := by
  unfold maxId
  rw [List.map_cons, List.foldl_cons, foldl_max_init]
  omega

theorem readedgelist_fold (pairs : List (Nat × Nat)) (g : adjlist) :
    (pairs.foldl readedgelist_step g).n = max g.n (maxId pairs) ∧
    (pairs.foldl readedgelist_step g).e = g.e + pairs.length ∧
    (pairs.foldl readedgelist_step g).edges = g.edges ++ pairs.map (fun p => ⟨p.1, p.2⟩) := by
  induction pairs generalizing g with
  | nil => simp [maxId]
  | cons p l ih =>
    obtain ⟨h1, h2, h3⟩ := ih (readedgelist_step g p)
    rw [List.foldl_cons, h1, h2, h3, maxId_cons]
    refine ⟨?_, by simp [readedgelist_step]; omega, by simp [readedgelist_step]⟩
    simp only [readedgelist_step, max3_eq]
    omega

theorem specNodeCount_fold (l : List (Nat × Nat)) (a : Nat) (ha : 0 < a) :
    l.foldl (fun n p => max n (max (p.1 + 1) (p.2 + 1))) a = max a (maxId l + 1) := by
  induction l generalizing a with
  | nil => simp [maxId]; omega
  | cons p l ih =>
    rw [List.foldl_cons, ih _ (by omega), maxId_cons]
    omega

theorem specNodeCount_eq (pairs : List (Nat × Nat)) (h : pairs ≠ []) :
    specNodeCount pairs = maxId pairs + 1 := by
  cases pairs with
  | nil => exact absurd rfl h
  | cons p l =>
    unfold specNodeCount
    rw [List.foldl_cons, specNodeCount_fold l _ (by omega), maxId_cons]
    omega

theorem maxId_ge (pairs : List (Nat × Nat)) (p : Nat × Nat) (hp : p ∈ pairs) :
    p.1 ≤ maxId pairs ∧ p.2 ≤ maxId pairs := by
  induction pairs with
  | nil => simp at hp
  | cons q l ih =>
    rw [maxId_cons]
    rcases List.mem_cons.mp hp with h | h
    · subst h; omega
    · have := ih h; omega

theorem maxId_lt (pairs : List (Nat × Nat)) (b : Nat) (hb : 0 < b)
    (h : ∀ p ∈ pairs, p.1 < b ∧ p.2 < b) : maxId pairs < b := by
  induction pairs with
  | nil => simpa [maxId] using hb
  | cons q l ih =>
    have h1 := h q (by simp)
    have h2 := ih (fun p hp => h p (by simp [hp]))
    rw [maxId_cons]
    omega

/-- Fields of the graph returned by `readedgelist`, before any assumption on the ids. -/
theorem readedgelist_fields (pairs : List (Nat × Nat)) :
    (readedgelist pairs).n = (maxId pairs + 1) % (ULONG_MAX + 1) ∧
    (readedgelist pairs).e = pairs.length ∧
    (readedgelist pairs).edges = pairs.map (fun p => ⟨p.1, p.2⟩) := by
  obtain ⟨h1, h2, h3⟩ := readedgelist_fold pairs
    { n := 0, e := 0, edges := [], cd := [], adj := [] }
  unfold readedgelist
  dsimp only
  rw [h1, h2, h3]
  simp

/-- The graph read from ids below `ULONG_MAX` has its endpoints below `n`. -/
theorem readedgelist_wellFormed (pairs : List (Nat × Nat))
    (hid : ∀ p ∈ pairs, p.1 < ULONG_MAX ∧ p.2 < ULONG_MAX) :
    (readedgelist pairs).n = maxId pairs + 1 ∧ wellFormed (readedgelist pairs) := by
  obtain ⟨h1, h2, h3⟩ := readedgelist_fields pairs
  have hlt := maxId_lt pairs ULONG_MAX (by decide) hid
  have hn : (readedgelist pairs).n = maxId pairs + 1 := by
    rw [h1]
    exact Nat.mod_eq_of_lt (by omega)
  refine ⟨hn, ?_, ?_⟩
  · rw [h2, h3]; simp
  · intro ed hed
    rw [h3] at hed
    obtain ⟨p, hp, rfl⟩ := List.mem_map.mp hed
    have := maxId_ge pairs p hp
    rw [hn]
    dsimp only
    omega

/-- C11 (counterexample): for the one-pair sequence `(ULONG_MAX, 0)` the increment `g->n++`
wraps around and `readedgelist` returns `n = 0`, not the maximum id plus one. -/
theorem readedgelist_wraps :
    (readedgelist [(ULONG_MAX, 0)]).n = 0 ∧
    (readedgelist [(ULONG_MAX, 0)]).n ≠ maxId [(ULONG_MAX, 0)] + 1 := by
  decide

/-- C11 (amended): for every non-empty sequence of pairs whose ids are all below `ULONG_MAX`,
the node count computed by `readedgelist` is the maximum id plus one, which is also the result of
starting from 0 and updating `n = max(n, u+1, v+1)` for each pair; `e` is the number of pairs and
`edges` holds the pairs in arrival order. -/
theorem readedgelist_spec (pairs : List (Nat × Nat)) (hne : pairs ≠ [])
    (hid : ∀ p ∈ pairs, p.1 < ULONG_MAX ∧ p.2 < ULONG_MAX) :
    (readedgelist pairs).n = maxId pairs + 1 ∧
    (readedgelist pairs).n = specNodeCount pairs ∧
    (readedgelist pairs).e = pairs.length ∧
    (readedgelist pairs).edges = pairs.map (fun p => ⟨p.1, p.2⟩) := by
  obtain ⟨_, h2, h3⟩ := readedgelist_fields pairs
  obtain ⟨hn, _⟩ := readedgelist_wellFormed pairs hid
  exact ⟨hn, by rw [hn, specNodeCount_eq pairs hne], h2, h3⟩

theorem readedgelist_spec_witness :
    [(0, 1), (1, 2), (2, 2), (2, 0)] ≠ ([] : List (Nat × Nat)) ∧
    (∀ p ∈ [(0, 1), (1, 2), (2, 2), (2, 0)], p.1 < ULONG_MAX ∧ p.2 < ULONG_MAX) ∧
    (readedgelist [(0, 1), (1, 2), (2, 2), (2, 0)]).n = 3 ∧
    (readedgelist [(0, 1), (1, 2), (2, 2), (2, 0)]).n
      = specNodeCount [(0, 1), (1, 2), (2, 2), (2, 0)] ∧
    (readedgelist [(0, 1), (1, 2), (2, 2), (2, 0)]).e = 4 ∧
    (readedgelist [(0, 1), (1, 2), (2, 2), (2, 0)]).edges = [⟨0, 1⟩, ⟨1, 2⟩, ⟨2, 2⟩, ⟨2, 0⟩] :=
  ⟨by decide, by decide,
    readedgelist_spec [(0, 1), (1, 2), (2, 2), (2, 0)] (by decide) (by decide)⟩

/-! ## Empty stream, initial embedding, zero sweeps -/

section EmptyAndInit

theorem mkadjlist_wellFormed (junkcd junkadj : Nat → Nat) (g : adjlist) (h : wellFormed g) :
    wellFormed (mkadjlist junkcd junkadj g) := h

theorem hyperplanecut_lab_length {α : Type} [LinearOrderedField α] (gauss : Nat → α)
    (junkv : Nat → α) (junk1 junk2 : Nat → Int) (g : adjlist) (emb : List α) (k pos : Nat)
    (h : wellFormed g) :
    (hyperplanecut gauss junkv junk1 junk2 g emb k pos).lab.length = g.n :=
  (trial_loop_inv gauss junkv junk1 junk2 g emb k pos h 10).2.2.1

/-- C12 (counterexample): on the empty stream `readedgelist` returns `n = 1`, not `n = 0`, and
the embedding built for it has `k` cells instead of none. -/
theorem readedgelist_empty_stream :
    (readedgelist []).n = 1 ∧ (readedgelist []).n ≠ 0 ∧
    (init_embedding (fun x => x) (fun _ => (1 : ℚ)) (fun _ => 0) (readedgelist []).n 2 0).1.length
      ≠ 0 := by
  refine ⟨by decide, by decide, ?_⟩
  rw [init_embedding_length]
  decide

/-- C12 (amended): for the empty stream the graph built by `readedgelist` and `mkadjlist` has
`n = 1` and `e = 0`; the embedding returned by `spinmaxcut` has one node row of `k` cells, the
label array returned by `hyperplanecut` has one cell, and the cut size is 0. -/
theorem empty_stream_spec {α : Type} [LinearOrderedField α] (sqrt : α → α)
    (gauss junk junkv : Nat → α) (junkcd junkadj : Nat → Nat) (junk1 junk2 : Nat → Int)
    (emb : List α) (k t pos pos2 : Nat) :
    (mkadjlist junkcd junkadj (readedgelist [])).n = 1 ∧
    (mkadjlist junkcd junkadj (readedgelist [])).e = 0 ∧
    (spinmaxcut sqrt gauss junk (mkadjlist junkcd junkadj (readedgelist [])) k t pos).1.length
      = k ∧
    (hyperplanecut gauss junkv junk1 junk2 (mkadjlist junkcd junkadj (readedgelist [])) emb k
      pos2).lab.length = 1 ∧
    (hyperplanecut gauss junkv junk1 junk2 (mkadjlist junkcd junkadj (readedgelist [])) emb k
      pos2).cut = 0 := by
  have hn : (mkadjlist junkcd junkadj (readedgelist [])).n = 1 := by
    show (readedgelist []).n = 1
    decide
  have he : (mkadjlist junkcd junkadj (readedgelist [])).e = 0 := rfl
  have hwf : wellFormed (mkadjlist junkcd junkadj (readedgelist [])) :=
    mkadjlist_wellFormed _ _ _ (by decide)
  refine ⟨hn, he, ?_, ?_, ?_⟩
  · rw [spinmaxcut_length, hn, Nat.mul_one]
  · rw [hyperplanecut_lab_length _ _ _ _ _ _ _ _ hwf, hn]
  · have := trial_loop_cut_le gauss (mkadjlist junkcd junkadj (readedgelist [])) emb k
      { vect := malloc junkv k,
        lab1 := malloc junk1 (mkadjlist junkcd junkadj (readedgelist [])).n,
        lab2 := malloc junk2 (mkadjlist junkcd junkadj (readedgelist [])).n,
        cut := 0, pos := pos2 } (Nat.zero_le _) 10
    rw [he] at this
    unfold hyperplanecut
    dsimp only
    omega

theorem init_embedding_unit_node (gauss junk : Nat → ℝ) (n k pos u : Nat) (hu : u < n)
    (hdraw : ∃ j, j < k ∧ gauss (pos + u * k + j) ≠ 0) :
    nodeSqNorm k (init_embedding Real.sqrt gauss junk n k pos).1 u = 1 := by
  unfold nodeSqNorm
  rw [sqNorm_congr k _ (fun j => gauss (pos + u * k + j)
    / Real.sqrt (sqNorm k (fun j => gauss (pos + u * k + j))))
    (fun j hj => by
      rw [Nat.mul_comm k u]
      exact (init_embedding_spec Real.sqrt gauss junk n k pos).2 u hu j hj)]
  exact sqNorm_div_sqrt k _ (sqNorm_pos_of_ne k _ hdraw)

/-- C13: after `init_embedding`, the vector of every node `u < n` is the `k` draws taken for
that node divided by their Euclidean length, and it has Euclidean norm 1 (exact real
arithmetic) whenever those draws are not all zero (which needs `k ≥ 1`). -/
theorem init_embedding_norm (gauss junk : Nat → ℝ) (n k pos u : Nat) (hu : u < n)
    (hdraw : ∃ j, j < k ∧ gauss (pos + u * k + j) ≠ 0) :
    Real.sqrt (nodeSqNorm k (init_embedding Real.sqrt gauss junk n k pos).1 u) = 1 ∧
    ∀ j, j < k → (init_embedding Real.sqrt gauss junk n k pos).1.getD (k * u + j) 0
      = gauss (pos + u * k + j)
        / Real.sqrt (sqNorm k (fun j => gauss (pos + u * k + j))) := by
  refine ⟨by rw [init_embedding_unit_node gauss junk n k pos u hu hdraw, Real.sqrt_one], ?_⟩
  intro j hj
  rw [Nat.mul_comm k u]
  exact (init_embedding_spec Real.sqrt gauss junk n k pos).2 u hu j hj

theorem init_embedding_norm_witness :
    1 < 3 ∧ (∃ j, j < 2 ∧ (fun i : Nat => ((i : ℝ) + 1)) (0 + 1 * 2 + j) ≠ 0) ∧
    Real.sqrt (nodeSqNorm 2
      (init_embedding Real.sqrt (fun i : Nat => ((i : ℝ) + 1)) (fun _ => 0) 3 2 0).1 1) = 1 ∧
    ∀ j, j < 2 →
      (init_embedding Real.sqrt (fun i : Nat => ((i : ℝ) + 1)) (fun _ => 0) 3 2 0).1.getD
        (2 * 1 + j) 0
      = (fun i : Nat => ((i : ℝ) + 1)) (0 + 1 * 2 + j)
        / Real.sqrt (sqNorm 2 (fun j => (fun i : Nat => ((i : ℝ) + 1)) (0 + 1 * 2 + j))) :=
  ⟨by decide, ⟨0, by decide, by norm_num⟩,
    init_embedding_norm (fun i : Nat => ((i : ℝ) + 1)) (fun _ => 0) 3 2 0 1 (by decide)
      ⟨0, by decide, by norm_num⟩⟩

/-- C15: with `t = 0`, `spinmaxcut` returns exactly the embedding produced by
`init_embedding(n, k)` on the same stream, and has consumed exactly the same draws. -/
theorem spinmaxcut_zero_sweeps {α : Type} [LinearOrderedField α] (sqrt : α → α)
    (gauss junk : Nat → α) (g : adjlist) (k pos : Nat) :
    spinmaxcut sqrt gauss junk g k 0 pos = init_embedding sqrt gauss junk g.n k pos :=
  rfl

end EmptyAndInit

/-! ## Initial embedding: the divisor of the normalisation -/

section InitDivisor

theorem init_embedding_divisors_fst {α : Type} [LinearOrderedField α] (sqrt : α → α)
    (gauss junk : Nat → α) (n k pos : Nat) :
    ((init_embedding_divisors sqrt gauss junk n k pos).1,
      (init_embedding_divisors sqrt gauss junk n k pos).2.1)
      = init_embedding sqrt gauss junk n k pos := by
  unfold init_embedding_divisors init_embedding
  generalize malloc junk (k * n) = emb0
  have key : ∀ m : Nat,
      ((forLoop (fun i (st : List α × Nat × List α) =>
          let r := sample_loop gauss (i * k) k st.1 0 st.2.1
          let s := sqrt r.2.1
          (divide_loop (i * k) k s r.1, r.2.2, st.2.2 ++ [s])) m (emb0, pos, [])).1,
        (forLoop (fun i (st : List α × Nat × List α) =>
          let r := sample_loop gauss (i * k) k st.1 0 st.2.1
          let s := sqrt r.2.1
          (divide_loop (i * k) k s r.1, r.2.2, st.2.2 ++ [s])) m (emb0, pos, [])).2.1)
      = forLoop (fun i (st : List α × Nat) =>
          let r := sample_loop gauss (i * k) k st.1 0 st.2
          let s := sqrt r.2.1
          (divide_loop (i * k) k s r.1, r.2.2)) m (emb0, pos) := by
    intro m
    induction m with
    | zero => rfl
    | succ m ih =>
      rw [forLoop_succ, forLoop_succ, ← ih]
  exact key n

theorem gaussian_zero (RAND_MAX r2 : Nat) :
    gaussian Real.sqrt Real.log Real.cos RAND_MAX RAND_MAX r2 = 0 := by
  unfold gaussian
  dsimp only
  have h : ((RAND_MAX : ℝ) + 1) / ((RAND_MAX : ℝ) + 1) = 1 := div_self (by positivity)
  rw [h, Real.log_one, mul_zero, Real.sqrt_zero, zero_mul]

/-- C14 (evaluation at a failing input): when `rand()` returns `RAND_MAX`, `gaussian()` is
exactly 0; for `n = 1`, `k = 1` the single sample of node 0 is then 0, the divisor computed in
line 153 is `sqrt 0 = 0`, and line 155 divides the cell of node 0 by it: `init_embedding` has no
guard. -/
theorem init_embedding_zero_divisor (RAND_MAX : Nat) (junk : Nat → ℝ) :
    gaussStream Real.sqrt Real.log Real.cos RAND_MAX (fun _ => RAND_MAX) 0 = 0 ∧
    (init_embedding_divisors Real.sqrt
      (gaussStream Real.sqrt Real.log Real.cos RAND_MAX (fun _ => RAND_MAX)) junk 1 1 0).2.2
      = [0] ∧
    (init_embedding Real.sqrt
      (gaussStream Real.sqrt Real.log Real.cos RAND_MAX (fun _ => RAND_MAX)) junk 1 1 0).1
      = divide_loop 0 1 (0 : ℝ) [0] := by
  have hg : ∀ i, gaussStream Real.sqrt Real.log Real.cos RAND_MAX (fun _ => RAND_MAX) i = 0 :=
    fun i => gaussian_zero RAND_MAX RAND_MAX
  have hs : sample_loop (gaussStream Real.sqrt Real.log Real.cos RAND_MAX (fun _ => RAND_MAX))
      0 1 (malloc junk 1) 0 0 = ([0], 0, 1) := by
    simp [sample_loop, forLoop, malloc, hg, List.range_succ]
  refine ⟨hg 0, ?_, ?_⟩
  · unfold init_embedding_divisors
    simp only [forLoop, Nat.zero_mul, Nat.mul_one, hs]
    simp
  · unfold init_embedding
    simp only [forLoop, Nat.zero_mul, Nat.mul_one, hs]
    simp

end InitDivisor

/-! ## The SDP objective -/

section SdpObjective

theorem dot_le_of_unit (k : Nat) (x y : Nat → ℝ) (hx : sqNorm k x = 1) (hy : sqNorm k y = 1) :
    Finset.sum (Finset.range k) (fun j => x j * y j) ≤ 1 ∧
    -1 ≤ Finset.sum (Finset.range k) (fun j => x j * y j) := by
  unfold sqNorm at hx hy
  have h1 : 0 ≤ Finset.sum (Finset.range k) (fun j => (x j - y j) * (x j - y j)) :=
    Finset.sum_nonneg (fun j _ => mul_self_nonneg _)
  have h2 : 0 ≤ Finset.sum (Finset.range k) (fun j => (x j + y j) * (x j + y j)) :=
    Finset.sum_nonneg (fun j _ => mul_self_nonneg _)
  have e1 : Finset.sum (Finset.range k) (fun j => (x j - y j) * (x j - y j))
      = Finset.sum (Finset.range k) (fun j => x j * x j)
        + Finset.sum (Finset.range k) (fun j => y j * y j)
        - 2 * Finset.sum (Finset.range k) (fun j => x j * y j) := by
    rw [Finset.mul_sum, ← Finset.sum_add_distrib, ← Finset.sum_sub_distrib]
    exact Finset.sum_congr rfl (fun j _ => by ring)
  have e2 : Finset.sum (Finset.range k) (fun j => (x j + y j) * (x j + y j))
      = Finset.sum (Finset.range k) (fun j => x j * x j)
        + Finset.sum (Finset.range k) (fun j => y j * y j)
        + 2 * Finset.sum (Finset.range k) (fun j => x j * y j) := by
    rw [Finset.mul_sum, ← Finset.sum_add_distrib, ← Finset.sum_add_distrib]
    exact Finset.sum_congr rfl (fun j _ => by ring)
  rw [e1, hx, hy] at h1
  rw [e2, hx, hy] at h2
  constructor <;> linarith

theorem sdp_loop_dotNodes {α : Type} [LinearOrderedField α] (g : adjlist) (emb : List α)
    (k : Nat) (he : g.e = g.edges.length) :
    sdp_loop g emb k = (g.edges.map (fun ed => dotNodes k emb ed.s ed.t)).sum := by
  rw [sdp_loop_spec g emb k he]
  congr 1
  apply List.map_congr_left
  intro ed _
  unfold dotNodes
  exact Finset.sum_congr rfl (fun j _ => by rw [Nat.mul_comm ed.s k, Nat.mul_comm ed.t k])

theorem dot_sum_bounds (k n : Nat) (emb : List ℝ) (l : List edge)
    (hunit : ∀ u, u < n → nodeSqNorm k emb u = 1)
    (hl : ∀ ed ∈ l, ed.s < n ∧ ed.t < n) :
    (l.map (fun ed => dotNodes k emb ed.s ed.t)).sum ≤ (l.length : ℝ) ∧
    -(l.length : ℝ) ≤ (l.map (fun ed => dotNodes k emb ed.s ed.t)).sum := by
  induction l with
  | nil => simp
  | cons ed l ih =>
    have hb := hl ed (by simp)
    obtain ⟨h1, h2⟩ := ih (fun x hx => hl x (by simp [hx]))
    obtain ⟨h3, h4⟩ := dot_le_of_unit k (fun j => emb.getD (k * ed.s + j) 0)
      (fun j => emb.getD (k * ed.t + j) 0) (hunit _ hb.1) (hunit _ hb.2)
    have h5 : dotNodes k emb ed.s ed.t ≤ 1 := h3
    have h6 : -1 ≤ dotNodes k emb ed.s ed.t := h4
    rw [List.map_cons, List.sum_cons, List.length_cons]
    push_cast
    constructor <;> linarith

/-- C16: for a graph with endpoints below `n` and an embedding whose node vectors all have
Euclidean norm 1, the value returned as SDP objective is `(e - sum over the edges (a,b) of the
inner product of the vectors of a and b) / 2`, it is non-negative, and it is at most `e` (exact
real arithmetic). -/
theorem hyperplanecut_sdp_spec (gauss junkv : Nat → ℝ) (junk1 junk2 : Nat → Int) (g : adjlist)
    (emb : List ℝ) (k pos : Nat) (h : wellFormed g)
    (hunit : ∀ u, u < g.n → Real.sqrt (nodeSqNorm k emb u) = 1) :
    (hyperplanecut gauss junkv junk1 junk2 g emb k pos).cutsdp
      = ((g.e : ℝ) - (g.edges.map (fun ed => dotNodes k emb ed.s ed.t)).sum) / 2 ∧
    0 ≤ (hyperplanecut gauss junkv junk1 junk2 g emb k pos).cutsdp ∧
    (hyperplanecut gauss junkv junk1 junk2 g emb k pos).cutsdp ≤ (g.e : ℝ) := by
  have hs : (hyperplanecut gauss junkv junk1 junk2 g emb k pos).cutsdp
      = ((g.e : ℝ) - (g.edges.map (fun ed => dotNodes k emb ed.s ed.t)).sum) / 2 := by
    show ((g.e : ℝ) - sdp_loop g emb k) / 2 = _
    rw [sdp_loop_dotNodes g emb k h.1]
  have hunit2 : ∀ u, u < g.n → nodeSqNorm k emb u = 1 := by
    intro u hu
    have := hunit u hu
    rwa [Real.sqrt_eq_one] at this
  obtain ⟨h1, h2⟩ := dot_sum_bounds k g.n emb g.edges hunit2 h.2
  rw [← h.1] at h1 h2
  refine ⟨hs, ?_, ?_⟩
  · rw [hs]; linarith
  · rw [hs]
    have : (0 : ℝ) ≤ (g.e : ℝ) := Nat.cast_nonneg _
    linarith

theorem hyperplanecut_sdp_spec_witness :
    wellFormed pairGraph ∧
    (∀ u, u < pairGraph.n → Real.sqrt (nodeSqNorm 2 ([1, 0, 0, 1] : List ℝ) u) = 1) ∧
    (hyperplanecut (fun _ => (1 : ℝ)) (fun _ => 0) (fun _ => 0) (fun _ => 0) pairGraph
      [1, 0, 0, 1] 2 0).cutsdp
      = ((pairGraph.e : ℝ)
        - (pairGraph.edges.map (fun ed => dotNodes 2 ([1, 0, 0, 1] : List ℝ) ed.s ed.t)).sum) / 2 ∧
    0 ≤ (hyperplanecut (fun _ => (1 : ℝ)) (fun _ => 0) (fun _ => 0) (fun _ => 0) pairGraph
      [1, 0, 0, 1] 2 0).cutsdp ∧
    (hyperplanecut (fun _ => (1 : ℝ)) (fun _ => 0) (fun _ => 0) (fun _ => 0) pairGraph
      [1, 0, 0, 1] 2 0).cutsdp ≤ (pairGraph.e : ℝ) :=
  have hu : ∀ u, u < pairGraph.n → Real.sqrt (nodeSqNorm 2 ([1, 0, 0, 1] : List ℝ) u) = 1 := by
    intro u hu
    have h2 : u < 2 := hu
    interval_cases u <;> simp [nodeSqNorm, sqNorm, Finset.sum_range_succ]
  ⟨by decide, hu,
    hyperplanecut_sdp_spec (fun _ => (1 : ℝ)) (fun _ => 0) (fun _ => 0) (fun _ => 0) pairGraph
      [1, 0, 0, 1] 2 0 (by decide) hu⟩

end SdpObjective

/-! ## Triangle graph, retained labeling -/

section Triangle

theorem triangleGraph_fields :
    triangleGraph.n = 3 ∧ triangleGraph.e = 3 ∧
    triangleGraph.edges = [⟨0, 1⟩, ⟨1, 2⟩, ⟨2, 0⟩] ∧ wellFormed triangleGraph := by
  decide

theorem specTrialCut_triangle {α : Type} [LinearOrderedField α] (k : Nat) (emb : List α)
    (d : Nat → α) : specTrialCut triangleGraph k emb d ≤ 2 := by
  unfold specTrialCut
  rw [triangleGraph_fields.2.2.1]
  simp only [List.countP_cons, List.countP_nil, specLabel]
  split_ifs <;> simp_all

/-- The reported cut size is the count of one of the trials. -/
theorem hyperplanecut_cut_attained {α : Type} [LinearOrderedField α] (gauss : Nat → α)
    (junkv : Nat → α) (junk1 junk2 : Nat → Int) (g : adjlist) (emb : List α) (k pos : Nat)
    (h : wellFormed g) :
    (∀ l, l < 10 → specTrialCut g k emb (trialDir gauss k pos l)
      ≤ (hyperplanecut gauss junkv junk1 junk2 g emb k pos).cut) ∧
    ∃ l, l < 10 ∧ (hyperplanecut gauss junkv junk1 junk2 g emb k pos).cut
      = specTrialCut g k emb (trialDir gauss k pos l) := by
  obtain ⟨_, _, _, _, i5, i6⟩ := trial_loop_inv gauss junkv junk1 junk2 g emb k pos h 10
  refine ⟨i5, ?_⟩
  rcases i6 with ⟨a, _⟩ | ⟨_, l, hl, b, _, _⟩
  · refine ⟨0, by omega, ?_⟩
    have := i5 0 (by omega)
    unfold hyperplanecut
    dsimp only
    omega
  · exact ⟨l, hl, b.symm⟩

theorem signDraws_init :
    (spinmaxcut Real.sqrt (signDraws : Nat → ℝ) (fun _ => 0) triangleGraph 1 0 0).2 = 3 ∧
    (spinmaxcut Real.sqrt (signDraws : Nat → ℝ) (fun _ => 0) triangleGraph 1 0 0).1.getD 0 0
      = 1 ∧
    (spinmaxcut Real.sqrt (signDraws : Nat → ℝ) (fun _ => 0) triangleGraph 1 0 0).1.getD 1 0
      = -1 ∧
    (spinmaxcut Real.sqrt (signDraws : Nat → ℝ) (fun _ => 0) triangleGraph 1 0 0).1.getD 2 0
      = 1 := by
  have h := init_embedding_spec Real.sqrt (signDraws : Nat → ℝ) (fun _ => 0) 3 1 0
  have e : spinmaxcut Real.sqrt (signDraws : Nat → ℝ) (fun _ => 0) triangleGraph 1 0 0
      = init_embedding Real.sqrt (signDraws : Nat → ℝ) (fun _ => 0) 3 1 0 := rfl
  rw [e]
  refine ⟨h.1, ?_, ?_, ?_⟩
  · have := h.2 0 (by norm_num) 0 (by norm_num)
    simpa [sqNorm, signDraws, Finset.sum_range_succ] using this
  · have := h.2 1 (by norm_num) 0 (by norm_num)
    simpa [sqNorm, signDraws, Finset.sum_range_succ] using this
  · have := h.2 2 (by norm_num) 0 (by norm_num)
    simpa [sqNorm, signDraws, Finset.sum_range_succ] using this

/-- C17: on the triangle graph with edges (0,1),(1,2),(2,0) the reported cut size is at most 2
for every `k`, every `t` and every stream of draws, and it is exactly 2 for `k = 1`, `t = 0` and
the draws `1, -1, 1, 1, ...`. -/
theorem triangle_cut :
    (∀ (gauss junk junkv : Nat → ℝ) (junk1 junk2 : Nat → Int) (k t pos : Nat),
      (hyperplanecut gauss junkv junk1 junk2 triangleGraph
        (spinmaxcut Real.sqrt gauss junk triangleGraph k t pos).1 k
        (spinmaxcut Real.sqrt gauss junk triangleGraph k t pos).2).cut ≤ 2) ∧
    (hyperplanecut (signDraws : Nat → ℝ) (fun _ => 0) (fun _ => 0) (fun _ => 0) triangleGraph
      (spinmaxcut Real.sqrt (signDraws : Nat → ℝ) (fun _ => 0) triangleGraph 1 0 0).1 1
      (spinmaxcut Real.sqrt (signDraws : Nat → ℝ) (fun _ => 0) triangleGraph 1 0 0).2).cut
      = 2 := by
  have hwf := triangleGraph_fields.2.2.2
  have hle : ∀ (gauss junkv : Nat → ℝ) (junk1 junk2 : Nat → Int) (emb : List ℝ) (k pos : Nat),
      (hyperplanecut gauss junkv junk1 junk2 triangleGraph emb k pos).cut ≤ 2 := by
    intro gauss junkv junk1 junk2 emb k pos
    obtain ⟨_, l, _, hl⟩ := hyperplanecut_cut_attained gauss junkv junk1 junk2 triangleGraph
      emb k pos hwf
    rw [hl]
    exact specTrialCut_triangle k emb _
  refine ⟨fun gauss junk junkv junk1 junk2 k t pos => hle _ _ _ _ _ _ _, ?_⟩
  obtain ⟨hp, e0, e1, e2⟩ := signDraws_init
  rw [hp]
  generalize (spinmaxcut Real.sqrt (signDraws : Nat → ℝ) (fun _ => 0) triangleGraph 1 0 0).1
    = emb at e0 e1 e2
  rw [List.getD_eq_getElem?_getD] at e0 e1 e2
  have h1 : specTrialCut triangleGraph 1 emb (trialDir (signDraws : Nat → ℝ) 1 3 0) = 2 := by
    unfold specTrialCut
    rw [triangleGraph_fields.2.2.1]
    simp [specLabel, dotDir, trialDir, signDraws, List.countP_cons, e0, e1, e2]
    norm_num
  have h2 := (hyperplanecut_cut_attained (signDraws : Nat → ℝ) (fun _ => 0) (fun _ => 0)
    (fun _ => 0) triangleGraph emb 1 3 hwf).1 0 (by norm_num)
  rw [h1] at h2
  have h3 := hle (signDraws : Nat → ℝ) (fun _ => 0) (fun _ => 0) (fun _ => 0) emb 1 3
  omega

end Triangle

/-! ## Self-loop entries, retained labeling -/

section SelfLoopAndRetained

theorem sampleAdj_fields :
    sampleAdj.cd = [0, 2, 4, 8] ∧ sampleAdj.adj = [1, 2, 0, 2, 1, 2, 2, 0] ∧
    nbrs sampleAdj 2 = [1, 2, 2, 0] := by
  decide

/-- C18 (evaluation at a failing input): node 2 of the sample graph has the neighbour list
`[1, 2, 2, 0]`. With `k = 2` and the stored vectors `(1,0)`, `(0,1)`, `(1,0)` of the nodes 0, 1,
2, the sum named by the claim gives the accumulator `(-3,-1)` when the self entries contribute
the vector stored before the update, and `(-1,-1)` when they contribute nothing; the neighbour
loop of the code leaves `(-1,0)`: each self entry executes `emb[tmp1+j] -= emb[tmp1+j]`, which
resets the accumulator and discards the entry of node 1 processed before it. -/
theorem accumulate_self_loop {α : Type} [LinearOrderedField α] :
    (accumulate sampleAdj 2 2 (bzero (2 * 2) 2 ([1, 0, 0, 1, 1, 0] : List α))).getD (2 * 2 + 0) 0
      = -1 ∧
    (accumulate sampleAdj 2 2 (bzero (2 * 2) 2 ([1, 0, 0, 1, 1, 0] : List α))).getD (2 * 2 + 1) 0
      = 0 ∧
    negNeighbourSum sampleAdj 2 ([1, 0, 0, 1, 1, 0] : List α) 2 0 = -3 ∧
    negNeighbourSum sampleAdj 2 ([1, 0, 0, 1, 1, 0] : List α) 2 1 = -1 ∧
    negNeighbourSum sampleAdj 2 (bzero (2 * 2) 2 ([1, 0, 0, 1, 1, 0] : List α)) 2 1 = -1 := by
  obtain ⟨hcd, hadj, hnb⟩ := sampleAdj_fields
  have hb : bzero (2 * 2) 2 ([1, 0, 0, 1, 1, 0] : List α) = [1, 0, 0, 1, 0, 0] := by
    simp [bzero, forLoop]
  have hacc : accumulate sampleAdj 2 2 ([1, 0, 0, 1, 0, 0] : List α) = [1, 0, 0, 1, -1, 0] := by
    unfold accumulate
    rw [hcd, hadj]
    simp [forLoop]
  rw [hb, hacc]
  unfold negNeighbourSum
  rw [hnb]
  refine ⟨by simp, by simp, ?_, ?_, ?_⟩
  · simp; norm_num
  · simp
  · simp

/-- C19: whenever the cut size reported by `hyperplanecut` is positive, the returned label array
is exactly the labeling of the first trial whose cut count equals the reported cut size; every
returned label is `+1` or `-1`, and recounting the edges whose endpoints carry different
returned labels gives the reported cut size. -/
theorem hyperplanecut_retained {α : Type} [LinearOrderedField α] (gauss : Nat → α)
    (junkv : Nat → α) (junk1 junk2 : Nat → Int) (g : adjlist) (emb : List α) (k pos : Nat)
    (h : wellFormed g) (hpos : 0 < (hyperplanecut gauss junkv junk1 junk2 g emb k pos).cut) :
    (∃ l, l < 10 ∧
      specTrialCut g k emb (trialDir gauss k pos l)
        = (hyperplanecut gauss junkv junk1 junk2 g emb k pos).cut ∧
      (∀ l2, l2 < l → specTrialCut g k emb (trialDir gauss k pos l2)
        ≠ (hyperplanecut gauss junkv junk1 junk2 g emb k pos).cut) ∧
      (hyperplanecut gauss junkv junk1 junk2 g emb k pos).lab
        = (List.range g.n).map (fun u => specLabel k emb (trialDir gauss k pos l) u)) ∧
    (∀ u, u < g.n →
      (hyperplanecut gauss junkv junk1 junk2 g emb k pos).lab.getD u 0 = 1 ∨
      (hyperplanecut gauss junkv junk1 junk2 g emb k pos).lab.getD u 0 = -1) ∧
    g.edges.countP (fun ed =>
        (hyperplanecut gauss junkv junk1 junk2 g emb k pos).lab.getD ed.s 0
          ≠ (hyperplanecut gauss junkv junk1 junk2 g emb k pos).lab.getD ed.t 0)
      = (hyperplanecut gauss junkv junk1 junk2 g emb k pos).cut := by
  obtain ⟨_, _, i3, _, _, i6⟩ := trial_loop_inv gauss junkv junk1 junk2 g emb k pos h 10
  have hcut : (hyperplanecut gauss junkv junk1 junk2 g emb k pos).cut
      = (forLoop (fun _ st => trial gauss g emb k st) 10
          { vect := malloc junkv k, lab1 := malloc junk1 g.n, lab2 := malloc junk2 g.n,
            cut := 0, pos := pos }).cut := rfl
  have hlab : (hyperplanecut gauss junkv junk1 junk2 g emb k pos).lab
      = (forLoop (fun _ st => trial gauss g emb k st) 10
          { vect := malloc junkv k, lab1 := malloc junk1 g.n, lab2 := malloc junk2 g.n,
            cut := 0, pos := pos }).lab2 := rfl
  rw [← hcut, ← hlab] at i6
  rw [← hlab] at i3
  rcases i6 with ⟨a, _⟩ | ⟨_, l, hl, b, c, d⟩
  · omega
  · have hval : ∀ u, u < g.n →
        (hyperplanecut gauss junkv junk1 junk2 g emb k pos).lab.getD u 0
          = specLabel k emb (trialDir gauss k pos l) u := d
    refine ⟨⟨l, hl, b, fun l2 hl2 => Nat.ne_of_lt (c l2 hl2), ?_⟩, ?_, ?_⟩
    · apply List.ext_getElem
      · simp [i3]
      · intro u h1 h2
        have hu : u < g.n := by rw [← i3]; exact h1
        have := hval u hu
        rw [List.getD_eq_getElem?_getD, List.getElem?_eq_getElem h1] at this
        simpa using this
    · intro u hu
      rw [hval u hu]
      unfold specLabel
      split
      · exact Or.inl rfl
      · exact Or.inr rfl
    · rw [← b]
      unfold specTrialCut
      apply List.countP_congr
      intro ed hed
      have hb := h.2 ed hed
      rw [hval _ hb.1, hval _ hb.2]

theorem hyperplanecut_retained_witness :
    wellFormed pairGraph ∧
    0 < (hyperplanecut (fun _ => (1 : ℚ)) (fun _ => 0) (fun _ => 0) (fun _ => 0) pairGraph
      [1, -1] 1 0).cut ∧
    (∃ l, l < 10 ∧
      specTrialCut pairGraph 1 ([1, -1] : List ℚ) (trialDir (fun _ => (1 : ℚ)) 1 0 l)
        = (hyperplanecut (fun _ => (1 : ℚ)) (fun _ => 0) (fun _ => 0) (fun _ => 0) pairGraph
      [1, -1] 1 0).cut ∧
      (∀ l2, l2 < l →
        specTrialCut pairGraph 1 ([1, -1] : List ℚ) (trialDir (fun _ => (1 : ℚ)) 1 0 l2)
        ≠ (hyperplanecut (fun _ => (1 : ℚ)) (fun _ => 0) (fun _ => 0) (fun _ => 0) pairGraph
      [1, -1] 1 0).cut) ∧
      (hyperplanecut (fun _ => (1 : ℚ)) (fun _ => 0) (fun _ => 0) (fun _ => 0) pairGraph
      [1, -1] 1 0).lab
        = (List.range pairGraph.n).map
            (fun u => specLabel 1 ([1, -1] : List ℚ) (trialDir (fun _ => (1 : ℚ)) 1 0 l) u)) ∧
    (∀ u, u < pairGraph.n →
      (hyperplanecut (fun _ => (1 : ℚ)) (fun _ => 0) (fun _ => 0) (fun _ => 0) pairGraph
      [1, -1] 1 0).lab.getD u 0 = 1 ∨
      (hyperplanecut (fun _ => (1 : ℚ)) (fun _ => 0) (fun _ => 0) (fun _ => 0) pairGraph
      [1, -1] 1 0).lab.getD u 0 = -1) ∧
    pairGraph.edges.countP (fun ed =>
        (hyperplanecut (fun _ => (1 : ℚ)) (fun _ => 0) (fun _ => 0) (fun _ => 0) pairGraph
      [1, -1] 1 0).lab.getD ed.s 0
          ≠ (hyperplanecut (fun _ => (1 : ℚ)) (fun _ => 0) (fun _ => 0) (fun _ => 0) pairGraph
      [1, -1] 1 0).lab.getD ed.t 0)
      = (hyperplanecut (fun _ => (1 : ℚ)) (fun _ => 0) (fun _ => 0) (fun _ => 0) pairGraph
      [1, -1] 1 0).cut :=
  have hc : 0 < (hyperplanecut (fun _ => (1 : ℚ)) (fun _ => 0) (fun _ => 0) (fun _ => 0)
      pairGraph [1, -1] 1 0).cut := by
    have h1 := (hyperplanecut_cut_attained (fun _ => (1 : ℚ)) (fun _ => 0) (fun _ => 0)
      (fun _ => 0) pairGraph [1, -1] 1 0 (by decide)).1 0 (by decide)
    have h2 : specTrialCut pairGraph 1 ([1, -1] : List ℚ) (trialDir (fun _ => (1 : ℚ)) 1 0 0)
        = 1 := by
      simp [specTrialCut, pairGraph, specLabel, dotDir, trialDir, List.countP_cons]
      norm_num
    omega
  ⟨by decide, hc,
    hyperplanecut_retained (fun _ => (1 : ℚ)) (fun _ => 0) (fun _ => 0) (fun _ => 0) pairGraph
      [1, -1] 1 0 (by decide) hc⟩

end SelfLoopAndRetained

/-! ## Index safety of `mkadjlist` -/

section IndexSafety

theorem fill_writes_fst (g : adjlist) (cd adj d : List Nat) :
    ((mkadjlist_fill_writes g cd adj d).1, (mkadjlist_fill_writes g cd adj d).2.1)
      = mkadjlist_fill g cd adj d := by
  unfold mkadjlist_fill_writes mkadjlist_fill
  generalize g.e = m
  induction m with
  | zero => rfl
  | succ m ih =>
    rw [forLoop_succ, forLoop_succ, ← ih]

/-- One cursor write, seen from the record of writes: the new position is fresh, and it is the
next free cell of the slice of node `a`. -/
theorem writes_half_step (n : Nat) (c cap : Nat → Nat) (L L2 : Nat → List Nat) (d : List Nat)
    (W : List (Nat × Nat)) (a x : Nat) (ha : a < n)
    (hsep : ∀ w w2, w < w2 → c w + cap w ≤ c w2)
    (hcap : (L a).length < cap a) (hcapw : ∀ w, w < n → (L w).length ≤ cap w)
    (hdl : d.length = n) (hd : ∀ w, w < n → d.getD w 0 = (L w).length)
    (hW : ∀ wp ∈ W, wp.1 < n ∧ ∃ j, j < (L wp.1).length ∧ wp.2 = c wp.1 + j)
    (hnd : (W.map Prod.snd).Nodup)
    (hL2a : L2 a = L a ++ [x]) (hL2 : ∀ w, w ≠ a → L2 w = L w) :
    (d.set a (d.getD a 0 + 1)).length = n ∧
    (∀ w, w < n → (d.set a (d.getD a 0 + 1)).getD w 0 = (L2 w).length) ∧
    (∀ wp ∈ W ++ [(a, c a + d.getD a 0)],
      wp.1 < n ∧ ∃ j, j < (L2 wp.1).length ∧ wp.2 = c wp.1 + j) ∧
    ((W ++ [(a, c a + d.getD a 0)]).map Prod.snd).Nodup ∧
    (W ++ [(a, c a + d.getD a 0)]).length = W.length + 1 := by
  have hda := hd a ha
  refine ⟨by simp [hdl], ?_, ?_, ?_, by simp⟩
  · intro w hw
    by_cases h : w = a
    · subst h
      rw [getD_set_self _ _ _ _ (by omega), hL2a, hd w hw]; simp
    · rw [getD_set_other _ _ _ _ _ (Ne.symm h), hL2 w h, hd w hw]
  · intro wp hwp
    rcases List.mem_append.mp hwp with h | h
    · obtain ⟨h1, j, hj, h2⟩ := hW wp h
      refine ⟨h1, j, ?_, h2⟩
      by_cases hwa : wp.1 = a
      · rw [hwa, hL2a]; rw [hwa] at hj; simp; omega
      · rw [hL2 _ hwa]; exact hj
    · have hEq : wp = (a, c a + d.getD a 0) := by simpa using h
      subst hEq
      refine ⟨ha, (L a).length, ?_, by rw [hda]⟩
      show (L a).length < (L2 a).length
      rw [hL2a]; simp
  · rw [List.map_append, List.nodup_append]
    refine ⟨hnd, by simp, ?_⟩
    intro p hp1 hp2
    have hp : p = c a + d.getD a 0 := by simpa using hp2
    obtain ⟨wp, hwp, hwp2⟩ := List.mem_map.mp hp1
    obtain ⟨h1, j, hj, h2⟩ := hW wp hwp
    rw [hda] at hp
    have hpe : c wp.1 + j = c a + (L a).length := by rw [← h2, hwp2, hp]
    rcases Nat.lt_trichotomy wp.1 a with h3 | h3 | h3
    · have := hsep wp.1 a h3; have := hcapw wp.1 h1; omega
    · rw [h3] at hj hpe; omega
    · have := hsep a wp.1 h3; omega

theorem nodup_bounded_perm (l : List Nat) (m : Nat) (hnd : l.Nodup)
    (hb : ∀ x ∈ l, x < m) (hlen : l.length = m) : l.Perm (List.range m) := by
  apply List.perm_of_nodup_nodup_toFinset_eq hnd (List.nodup_range m)
  apply Finset.eq_of_subset_of_card_le
  · intro x hx
    rw [List.mem_toFinset] at hx
    rw [List.mem_toFinset, List.mem_range]
    exact hb x hx
  · rw [List.toFinset_card_of_nodup hnd, List.toFinset_card_of_nodup (List.nodup_range m),
      List.length_range, hlen]

theorem mem_incidence (edges : List edge) (w x : Nat) (h : x ∈ incidence edges w) :
    ∃ ed ∈ edges, x = ed.s ∨ x = ed.t := by
  unfold incidence at h
  obtain ⟨ed, hed, hx⟩ := List.mem_flatMap.mp h
  refine ⟨ed, hed, ?_⟩
  unfold edgeContrib at hx
  rcases List.mem_append.mp hx with h1 | h1
  · split at h1
    · right; simpa using h1
    · simp at h1
  · split at h1
    · left; simpa using h1
    · simp at h1

end IndexSafety

section IndexSafety2

/-- Record of the writes of the fill loop: every write goes to a cell of the slice of its node,
no cell is written twice, and there are `2 * e` writes. -/
theorem fill_writes_inv (g : adjlist) (h : wellFormed g) (cd adj d : List Nat)
    (hcd : ∀ w, w ≤ g.n → cd.getD w 0 = degsum g.edges w)
    (hdl : d.length = g.n) (hd : ∀ w, w < g.n → d.getD w 0 = 0) :
    (∀ wp ∈ (mkadjlist_fill_writes g cd adj d).2.2, wp.1 < g.n ∧
      ∃ j, j < (incidence g.edges wp.1).length ∧ wp.2 = degsum g.edges wp.1 + j) ∧
    (((mkadjlist_fill_writes g cd adj d).2.2).map Prod.snd).Nodup ∧
    ((mkadjlist_fill_writes g cd adj d).2.2).length = 2 * g.e := by
  have hsep : ∀ w w2, w < w2 →
      degsum g.edges w + (incidence g.edges w).length ≤ degsum g.edges w2 :=
    fun w w2 hw => degsum_slice_le g.edges w w2 hw
  have key := forLoop_inv
    (fun i (st : List Nat × List Nat × List (Nat × Nat)) => st.2.1.length = g.n ∧
      (∀ w, w < g.n → st.2.1.getD w 0 = (incidence (g.edges.take i) w).length) ∧
      (∀ wp ∈ st.2.2, wp.1 < g.n ∧
        ∃ j, j < (incidence (g.edges.take i) wp.1).length ∧ wp.2 = degsum g.edges wp.1 + j) ∧
      (st.2.2.map Prod.snd).Nodup ∧ st.2.2.length = 2 * i)
    (fun i (st : List Nat × List Nat × List (Nat × Nat)) =>
      let u := (edgeAt g.edges i).s
      let v := (edgeAt g.edges i).t
      let p1 := cd.getD u 0 + st.2.1.getD u 0
      let adj := st.1.set p1 v
      let d := st.2.1.set u (st.2.1.getD u 0 + 1)
      let p2 := cd.getD v 0 + d.getD v 0
      let adj := adj.set p2 u
      let d := d.set v (d.getD v 0 + 1)
      (adj, d, st.2.2 ++ [(u, p1), (v, p2)])) g.e (adj, d, [])
    ⟨hdl, fun w hw => by rw [hd w hw]; simp [incidence], fun wp hwp => by simp at hwp,
      by simp, rfl⟩
    (by
      intro i st hi ⟨h2, h3, h4, h5, h6⟩
      have hi2 : i < g.edges.length := h.1 ▸ hi
      have hb := h.2 _ (edgeAt_mem g.edges i hi2)
      have htk := take_succ_edgeAt g.edges i hi2
      have hle := fun w => incidence_take_le g.edges (i + 1) w
      dsimp only
      rw [hcd _ (Nat.le_of_lt hb.1), hcd _ (Nat.le_of_lt hb.2)]
      simp only [htk, incidence_snoc] at hle ⊢
      generalize edgeAt g.edges i = ed at hb hle ⊢
      have hle2 : ∀ w, (incidence (g.edges.take i) w).length
          + ((if ed.s = w then 1 else 0) + (if ed.t = w then 1 else 0))
          ≤ (incidence g.edges w).length := by
        intro w
        have := hle w
        rwa [List.length_append, edgeContrib_length] at this
      have s1 := writes_half_step g.n (degsum g.edges) (fun w => (incidence g.edges w).length)
        (fun w => incidence (g.edges.take i) w)
        (fun w => incidence (g.edges.take i) w ++ (if ed.s = w then [ed.t] else []))
        st.2.1 st.2.2 ed.s ed.t hb.1 hsep
        (by
          show (incidence (g.edges.take i) ed.s).length < (incidence g.edges ed.s).length
          have := hle2 ed.s
          rw [if_pos rfl] at this
          omega)
        (fun w _ => incidence_take_le g.edges i w) h2 h3 h4 h5 (by simp)
        (fun w hw => by simp [Ne.symm hw])
      obtain ⟨a1, a2, a3, a4, a5⟩ := s1
      have s2 := writes_half_step g.n (degsum g.edges) (fun w => (incidence g.edges w).length)
        (fun w => incidence (g.edges.take i) w ++ (if ed.s = w then [ed.t] else []))
        (fun w => incidence (g.edges.take i) w ++ edgeContrib w ed)
        (st.2.1.set ed.s (st.2.1.getD ed.s 0 + 1))
        (st.2.2 ++ [(ed.s, degsum g.edges ed.s + st.2.1.getD ed.s 0)]) ed.t ed.s hb.2 hsep
        (by
          show (incidence (g.edges.take i) ed.t ++ (if ed.s = ed.t then [ed.t] else [])).length
            < (incidence g.edges ed.t).length
          have := hle2 ed.t
          rw [if_pos rfl] at this
          by_cases hst : ed.s = ed.t
          · rw [if_pos hst] at this ⊢; simp; omega
          · rw [if_neg hst] at this ⊢; simp; omega)
        (fun w _ => by
          show (incidence (g.edges.take i) w ++ (if ed.s = w then [ed.t] else [])).length
            ≤ (incidence g.edges w).length
          have := hle2 w
          by_cases hst : ed.s = w
          · rw [if_pos hst] at this ⊢; simp; omega
          · rw [if_neg hst] at this ⊢; simp; omega)
        a1 a2 a3 a4 (by simp [edgeContrib])
        (fun w hw => by simp [edgeContrib, Ne.symm hw])
      obtain ⟨b1, b2, b3, b4, b5⟩ := s2
      have happ : st.2.2 ++ [(ed.s, degsum g.edges ed.s + st.2.1.getD ed.s 0),
          (ed.t, degsum g.edges ed.t
            + (st.2.1.set ed.s (st.2.1.getD ed.s 0 + 1)).getD ed.t 0)]
          = (st.2.2 ++ [(ed.s, degsum g.edges ed.s + st.2.1.getD ed.s 0)])
            ++ [(ed.t, degsum g.edges ed.t
              + (st.2.1.set ed.s (st.2.1.getD ed.s 0 + 1)).getD ed.t 0)] := by
        simp
      rw [happ]
      exact ⟨b1, b2, b3, b4, by rw [b5, a5, h6]; ring⟩)
  have hfull : g.edges.take g.e = g.edges := by rw [h.1]; simp
  dsimp only at key
  simp only [hfull] at key
  exact ⟨key.2.2.1, key.2.2.2.1, key.2.2.2.2⟩

/-- Contents of `cd` and `adj` after `mkadjlist`, in terms of the incidence lists. -/
theorem mkadjlist_layout (junkcd junkadj : Nat → Nat) (g : adjlist) (h : wellFormed g) :
    (mkadjlist junkcd junkadj g).cd.length = g.n + 1 ∧
    (∀ w, w ≤ g.n → (mkadjlist junkcd junkadj g).cd.getD w 0 = degsum g.edges w) ∧
    (mkadjlist junkcd junkadj g).adj.length = 2 * g.e ∧
    (∀ w, w < g.n → ∀ j, j < (incidence g.edges w).length →
      (mkadjlist junkcd junkadj g).adj.getD (degsum g.edges w + j) 0
        = (incidence g.edges w).getD j 0) ∧
    (∀ wp ∈ mkadjlist_writes junkcd junkadj g, wp.1 < g.n ∧
      ∃ j, j < (incidence g.edges wp.1).length ∧ wp.2 = degsum g.edges wp.1 + j) ∧
    ((mkadjlist_writes junkcd junkadj g).map Prod.snd).Nodup ∧
    (mkadjlist_writes junkcd junkadj g).length = 2 * g.e := by
  obtain ⟨c1, c2⟩ := mkadjlist_cd_getD junkcd junkadj g h
  have hc := mkadjlist_count_spec g h
  have hk := mkadjlist_cumul_spec g (malloc junkcd (g.n + 1)) (mkadjlist_count g (calloc g.n))
    (fun w => (incidence g.edges w).length) (malloc_length _ _) hc.1 hc.2 (degsum g.edges)
    rfl (fun _ => rfl)
  have hf := mkadjlist_fill_spec g h _ (malloc junkadj (2 * g.e)) _ hk.2.1
    (malloc_length _ _) hk.2.2.1 hk.2.2.2
  have hw := fill_writes_inv g h _ (malloc junkadj (2 * g.e)) _ hk.2.1 hk.2.2.1 hk.2.2.2
  exact ⟨c1, c2, hf.1, hf.2, hw.1, hw.2.1, hw.2.2⟩

theorem mkadjlist_nbrs_incidence (junkcd junkadj : Nat → Nat) (g : adjlist) (h : wellFormed g)
    (u : Nat) (hu : u < g.n) :
    nbrs (mkadjlist junkcd junkadj g) u = incidence g.edges u := by
  obtain ⟨_, h2, _, h4, _⟩ := mkadjlist_layout junkcd junkadj g h
  unfold nbrs
  rw [h2 u (Nat.le_of_lt hu), h2 (u + 1) hu]
  apply map_range_getD
  · simp [degsum]
  · intro i hi
    have hi2 : i < (incidence g.edges u).length := by simpa [degsum] using hi
    exact h4 u hu i hi2

end IndexSafety2

section IndexSafety3

/-- Index facts of `mkadjlist` and of the sweep reads, for any graph with endpoints below `n`. -/
theorem mkadjlist_indices (junkcd junkadj : Nat → Nat) (g : adjlist) (h : wellFormed g) :
    (∀ wp ∈ mkadjlist_writes junkcd junkadj g, wp.1 < g.n ∧
      (mkadjlist junkcd junkadj g).cd.getD wp.1 0 ≤ wp.2 ∧
      wp.2 < (mkadjlist junkcd junkadj g).cd.getD (wp.1 + 1) 0 ∧ wp.2 < 2 * g.e) ∧
    ((mkadjlist_writes junkcd junkadj g).map Prod.snd).Perm (List.range (2 * g.e)) ∧
    (∀ p, p < 2 * g.e → (mkadjlist junkcd junkadj g).adj.getD p 0 < g.n) ∧
    (∀ k u v j, u < g.n → v ∈ nbrs (mkadjlist junkcd junkadj g) u → j < k →
      k * v + j < k * g.n) := by
  obtain ⟨_, l2, _, l4, l5, l6, l7⟩ := mkadjlist_layout junkcd junkadj g h
  have htot : degsum g.edges g.n = 2 * g.e := by rw [degsum_total g.n g.edges h.2, h.1]
  have hin : ∀ w x, x ∈ incidence g.edges w → x < g.n := by
    intro w x hx
    obtain ⟨ed, hed, hx2⟩ := mem_incidence g.edges w x hx
    have := h.2 ed hed
    rcases hx2 with rfl | rfl
    · exact this.1
    · exact this.2
  have hd : ∀ wp ∈ mkadjlist_writes junkcd junkadj g, wp.1 < g.n ∧
      (mkadjlist junkcd junkadj g).cd.getD wp.1 0 ≤ wp.2 ∧
      wp.2 < (mkadjlist junkcd junkadj g).cd.getD (wp.1 + 1) 0 ∧ wp.2 < 2 * g.e := by
    intro wp hwp
    obtain ⟨h1, j, hj, h2⟩ := l5 wp hwp
    have hm := degsum_mono g.edges (wp.1 + 1) g.n h1
    rw [l2 _ (Nat.le_of_lt h1), l2 _ h1]
    simp only [degsum] at hm ⊢
    omega
  have hperm := nodup_bounded_perm _ (2 * g.e) l6
    (fun x hx => by
      obtain ⟨wp, hwp, rfl⟩ := List.mem_map.mp hx
      exact (hd wp hwp).2.2.2)
    (by rw [List.length_map, l7])
  refine ⟨hd, hperm, ?_, ?_⟩
  · intro p hp
    have hmem : p ∈ (mkadjlist_writes junkcd junkadj g).map Prod.snd :=
      (hperm.mem_iff).mpr (List.mem_range.mpr hp)
    obtain ⟨wp, hwp, rfl⟩ := List.mem_map.mp hmem
    obtain ⟨h1, j, hj, h2⟩ := l5 wp hwp
    rw [h2, l4 wp.1 h1 j hj]
    apply hin wp.1
    rw [List.getD_eq_getElem?_getD, List.getElem?_eq_getElem hj]
    exact List.getElem_mem hj
  · intro k u v j hu hv hj
    rw [mkadjlist_nbrs_incidence junkcd junkadj g h u hu] at hv
    have := block_in_bounds k g.n v (hin u v hv)
    omega

/-- C20 (counterexample): for the one-pair sequence `(ULONG_MAX, 0)` the node count wraps to
`n = 0`, so the degree array has no cell and both degree indices of the edge are out of
bounds. -/
theorem readedgelist_wrap_index :
    (calloc (readedgelist [(ULONG_MAX, 0)]).n).length = 0 ∧
    ¬ (∀ ed ∈ (readedgelist [(ULONG_MAX, 0)]).edges,
      ed.s < (readedgelist [(ULONG_MAX, 0)]).n ∧ ed.t < (readedgelist [(ULONG_MAX, 0)]).n) := by
  decide

/-- C20 (amended): for every sequence of pairs whose ids are all below `ULONG_MAX`, with `n`
and `e` as computed by `readedgelist`: every degree index is below `n`, `cd` has `n + 1` cells
and `adj` has `2 * e` cells, every write position of the fill loop lies in
`[cd[u], cd[u+1])` for its node `u` and is below `2 * e`, the write positions are a permutation
of `0 .. 2e-1` (each cell of `adj` is written exactly once), every entry of `adj` is a node id
below `n`, and every embedding index `k*v + j` read by a sweep is below `k * n`. -/
theorem mkadjlist_index_safety (junkcd junkadj : Nat → Nat) (pairs : List (Nat × Nat))
    (hid : ∀ p ∈ pairs, p.1 < ULONG_MAX ∧ p.2 < ULONG_MAX) :
    (∀ ed ∈ (readedgelist pairs).edges,
      ed.s < (readedgelist pairs).n ∧ ed.t < (readedgelist pairs).n) ∧
    (calloc (readedgelist pairs).n).length = (readedgelist pairs).n ∧
    (mkadjlist junkcd junkadj (readedgelist pairs)).cd.length = (readedgelist pairs).n + 1 ∧
    (mkadjlist junkcd junkadj (readedgelist pairs)).adj.length = 2 * (readedgelist pairs).e ∧
    (∀ wp ∈ mkadjlist_writes junkcd junkadj (readedgelist pairs),
      wp.1 < (readedgelist pairs).n ∧
      (mkadjlist junkcd junkadj (readedgelist pairs)).cd.getD wp.1 0 ≤ wp.2 ∧
      wp.2 < (mkadjlist junkcd junkadj (readedgelist pairs)).cd.getD (wp.1 + 1) 0 ∧
      wp.2 < 2 * (readedgelist pairs).e) ∧
    ((mkadjlist_writes junkcd junkadj (readedgelist pairs)).map Prod.snd).Perm
      (List.range (2 * (readedgelist pairs).e)) ∧
    (∀ p, p < 2 * (readedgelist pairs).e →
      (mkadjlist junkcd junkadj (readedgelist pairs)).adj.getD p 0 < (readedgelist pairs).n) ∧
    (∀ k u v j, u < (readedgelist pairs).n →
      v ∈ nbrs (mkadjlist junkcd junkadj (readedgelist pairs)) u → j < k →
      k * v + j < k * (readedgelist pairs).n) := by
  have hwf := (readedgelist_wellFormed pairs hid).2
  obtain ⟨l1, _, l3, _⟩ := mkadjlist_layout junkcd junkadj (readedgelist pairs) hwf
  obtain ⟨i1, i2, i3, i4⟩ := mkadjlist_indices junkcd junkadj (readedgelist pairs) hwf
  exact ⟨hwf.2, calloc_length _, l1, l3, i1, i2, i3, i4⟩

theorem mkadjlist_index_safety_witness :
    (∀ p ∈ [(0, 1), (1, 2), (2, 2), (2, 0)], p.1 < ULONG_MAX ∧ p.2 < ULONG_MAX) ∧
    (mkadjlist_writes (fun _ => 7) (fun _ => 9)
        (readedgelist [(0, 1), (1, 2), (2, 2), (2, 0)])).map Prod.snd
      = [0, 2, 3, 4, 5, 6, 7, 1] ∧
    ((mkadjlist_writes (fun _ => 7) (fun _ => 9)
        (readedgelist [(0, 1), (1, 2), (2, 2), (2, 0)])).map Prod.snd).Perm
      (List.range (2 * (readedgelist [(0, 1), (1, 2), (2, 2), (2, 0)]).e)) ∧
    (∀ p, p < 2 * (readedgelist [(0, 1), (1, 2), (2, 2), (2, 0)]).e →
      (mkadjlist (fun _ => 7) (fun _ => 9)
        (readedgelist [(0, 1), (1, 2), (2, 2), (2, 0)])).adj.getD p 0
        < (readedgelist [(0, 1), (1, 2), (2, 2), (2, 0)]).n) :=
  ⟨by decide, by decide,
    (mkadjlist_index_safety (fun _ => 7) (fun _ => 9) [(0, 1), (1, 2), (2, 2), (2, 0)]
      (by decide)).2.2.2.2.2.1,
    (mkadjlist_index_safety (fun _ => 7) (fun _ => 9) [(0, 1), (1, 2), (2, 2), (2, 0)]
      (by decide)).2.2.2.2.2.2.1⟩

end IndexSafety3

end SpinMaxCut
